import Mathlib

/-!
Verification of the jottery note-sync system: a shallow embedding of the
client crypto service (`tui/src/crypto/service.rs`), the client note store
(`tui/src/repository/note.rs`, `tui/src/models/note.rs`), the client sync
cycle (`tui/src/ui/app.rs`, `perform_sync`), and the relay's push/pull
handlers (`server/src/api/sync.rs`), together with theorems settling the
specification's claims about them.

Modelling conventions:
  * Rust `u8` bytes are `Nat` values; byte strings are `List Nat`.
  * Server-side timestamps are SQLite TEXT columns compared with `>` by
    memcmp; they are modelled as `String` with byte-lexicographic order.
  * Client-side timestamps are `chrono::DateTime<Utc>` values compared by
    instant; they are modelled as `Nat`.
  * External library primitives (PBKDF2-HMAC-SHA-256, AES-256-GCM, base64,
    UTF-8, serde-JSON) are not part of this repository; they enter the
    model as a `CryptoPrims` bundle whose proof fields record exactly the
    library contracts the code relies on.
-/

/-- Byte-lexicographic order on char lists; with UTF-8 this coincides with
SQLite's memcmp TEXT comparison used by `note.modified_at > existing`. -/
def charListLt : List Char → List Char → Bool
  | [], [] => false
  | [], _ :: _ => true
  | _ :: _, [] => false
  | a :: as, b :: bs =>
    if a.toNat < b.toNat then true
    else if b.toNat < a.toNat then false
    else charListLt as bs

/-- `a < b` on SQLite TEXT values (and on Rust `String` via `Ord`). -/
def strLt (a b : String) : Bool := charListLt a.data b.data

/-- The envelope structure of `models/encryption.rs` (`EncryptedData`):
base64 ciphertext, base64 nonce (serde alias `iv`), base64 tag, where the
tag field is empty when the tag sits at the tail of the ciphertext. -/
structure EncryptedData where
  ciphertext : String
  nonce : String
  tag : String
  deriving DecidableEq, Repr

/-- External-library primitives used by `crypto/service.rs`, with the
contracts the code relies on.  `encryptAead`/`decryptAead` model the
`aes_gcm` crate's `Aead::encrypt`/`Aead::decrypt` (postfix tag: the
returned ciphertext is body ++ tag, and decryption expects that combined
form).  `pbkdf2` models `pbkdf2::pbkdf2_hmac::<Sha256>` filling an output
buffer of the requested length.  The base64 and UTF-8 codecs model the
`base64` crate's STANDARD engine and `String::from_utf8`/`as_bytes`.
`encDataToJson`/`parseEncData` model serde-JSON of `EncryptedData`, and
`jsonStrList`/`parseJsonStrList` model serde-JSON of `Vec<String>`. -/
structure CryptoPrims where
  pbkdf2 : List Nat → List Nat → Nat → Nat → List Nat
  encryptAead : List Nat → List Nat → List Nat → List Nat
  aeadBody : List Nat → List Nat → List Nat → List Nat
  aeadTag : List Nat → List Nat → List Nat → List Nat
  decryptAead : List Nat → List Nat → List Nat → Option (List Nat)
  b64encode : List Nat → String
  b64decode : String → Option (List Nat)
  utf8encode : String → List Nat
  utf8decode : List Nat → Option String
  encDataToJson : EncryptedData → String
  parseEncData : String → Option EncryptedData
  jsonStrList : List String → String
  parseJsonStrList : String → Option (List String)
  pbkdf2_len : ∀ p s i n, (pbkdf2 p s i n).length = n
  aead_roundtrip : ∀ k n m, decryptAead k n (encryptAead k n m) = some m
  aead_auth : ∀ k k' n m, k.length = 32 → k'.length = 32 → k ≠ k' →
    decryptAead k' n (encryptAead k n m) = none
  aead_split : ∀ k n m, encryptAead k n m = aeadBody k n m ++ aeadTag k n m
  aead_detached_fails : ∀ k n m, k.length = 32 →
    decryptAead k n (aeadBody k n m) = none
  b64_roundtrip : ∀ l, b64decode (b64encode l) = some l
  utf8_roundtrip : ∀ s, utf8decode (utf8encode s) = some s

/-! ## Crypto service (`tui/src/crypto/service.rs`) -/

/-- `SALT_LENGTH` from `service.rs`. -/
def SALT_LENGTH : Nat := 32

/-- `KEY_LENGTH` from `service.rs`. -/
def KEY_LENGTH : Nat := 32

/-- `DEFAULT_ITERATIONS` from `service.rs` (the comment says it matches the
web app). -/
def DEFAULT_ITERATIONS : Nat := 100000

/-- `CryptoService::derive_key`: reject salts shorter than `SALT_LENGTH`,
substitute `DEFAULT_ITERATIONS` when `iterations < 100_000`, then fill a
32-byte key with PBKDF2-HMAC-SHA-256. -/
def derive_key (P : CryptoPrims) (password : String) (salt : List Nat)
    (iterations : Nat) : Except String (List Nat) :=
  if salt.length < SALT_LENGTH then
    .error ("Salt must be at least 32 bytes")
  else
    .ok (P.pbkdf2 (P.utf8encode password) salt
      (if iterations < 100000 then DEFAULT_ITERATIONS else iterations) KEY_LENGTH)

/-- `CryptoService::encrypt_text`: AES-256-GCM under a fresh nonce (the
nonce, drawn from `OsRng` in the code, is a parameter here), base64 the
combined ciphertext and the nonce, and leave `tag` empty ("GCM includes
tag in ciphertext"). -/
def encrypt_text (P : CryptoPrims) (plaintext : String) (key nonce : List Nat) :
    EncryptedData :=
  { ciphertext := P.b64encode (P.encryptAead key nonce (P.utf8encode plaintext))
    nonce := P.b64encode nonce
    tag := "" }

/-- `CryptoService::decrypt_text`: base64-decode ciphertext and nonce,
AES-256-GCM-decrypt (the `tag` field of the envelope is never read), then
re-validate UTF-8.  Error strings are those of the source. -/
def decrypt_text (P : CryptoPrims) (e : EncryptedData) (key : List Nat) :
    Except String String :=
  match P.b64decode e.ciphertext with
  | none => .error ("Invalid base64 ciphertext")
  | some ct =>
    match P.b64decode e.nonce with
    | none => .error ("Invalid base64 nonce")
    | some nb =>
      match P.decryptAead key nb ct with
      | none => .error ("Decryption failed. Invalid key or corrupted data.")
      | some pt =>
        match P.utf8decode pt with
        | none => .error ("Decrypted data is not valid UTF-8")
        | some s => .ok s

/-- `CryptoService::encrypt_json` specialised to `Vec<String>` (used for
note tags by the local store): serialise with serde, then `encrypt_text`. -/
def encrypt_json_strList (P : CryptoPrims) (tags : List String)
    (key nonce : List Nat) : EncryptedData :=
  encrypt_text P (P.jsonStrList tags) key nonce

/-! ## A concrete instance of the external-library contracts

Used to evaluate the model at concrete inputs (witnesses and
counterexamples).  The functions are not the real PBKDF2/AES-GCM/base64,
only a computable family satisfying the same contracts. -/

/-- Unary byte-list encoder: each byte `n` becomes `n` copies of `a`
followed by one `b`.  Injective with a computable inverse. -/
def unaryEncodeList : List Nat → List Char
  | [] => []
  | n :: t => List.replicate n 'a' ++ 'b' :: unaryEncodeList t

/-- Inverse of `unaryEncodeList`; `k` counts the `a`s read so far. -/
def unaryDecodeAux : List Char → Nat → Option (List Nat)
  | [], k => if k = 0 then some [] else none
  | c :: rest, k =>
    if c = 'a' then unaryDecodeAux rest (k + 1)
    else if c = 'b' then (unaryDecodeAux rest 0).map (fun l => k :: l)
    else none

theorem unaryDecodeAux_replicate (n : Nat) (cs : List Char) (k : Nat) :
    unaryDecodeAux (List.replicate n 'a' ++ 'b' :: cs) k
      = (unaryDecodeAux cs 0).map (fun l => (k + n) :: l) := by
  induction n generalizing k with
  | zero => simp [unaryDecodeAux]
  | succ n ih =>
    have h1 : unaryDecodeAux ('a' :: (List.replicate n 'a' ++ 'b' :: cs)) k
        = unaryDecodeAux (List.replicate n 'a' ++ 'b' :: cs) (k + 1) := by
      simp [unaryDecodeAux]
    rw [List.replicate_succ, List.cons_append, h1, ih]
    have h2 : k + 1 + n = k + (n + 1) := by omega
    rw [h2]

theorem unaryDecode_encode (l : List Nat) :
    unaryDecodeAux (unaryEncodeList l) 0 = some l := by
  induction l with
  | nil => simp [unaryEncodeList, unaryDecodeAux]
  | cons n t ih =>
    simp [unaryEncodeList, unaryDecodeAux_replicate, ih]

/-- Split a char list on a separator (used by the concrete serde stand-in). -/
def splitCh (sep : Char) : List Char → List (List Char)
  | [] => [[]]
  | c :: rest =>
    let r := splitCh sep rest
    if c = sep then [] :: r
    else
      match r with
      | h :: t => (c :: h) :: t
      | [] => [[c]]

/-- The concrete `CryptoPrims` instance.  The AEAD prepends the message
length and appends the key (standing in for the GCM tag), so that
round-trips succeed, any other key is rejected, and a body stripped of its
tag is rejected. -/
def toyPrims : CryptoPrims where
  pbkdf2 := fun _ _ _ n => List.replicate n 0
  encryptAead := fun k _ m => m.length :: (m ++ k)
  aeadBody := fun _ _ m => m.length :: m
  aeadTag := fun k _ _ => k
  decryptAead := fun k _ c =>
    match c with
    | [] => none
    | len :: rest => if rest.drop len = k then some (rest.take len) else none
  b64encode := fun l => String.mk (unaryEncodeList l)
  b64decode := fun s => unaryDecodeAux s.data 0
  utf8encode := fun s => s.data.map Char.toNat
  utf8decode := fun l => some (String.mk (l.map Char.ofNat))
  encDataToJson := fun e =>
    e.ciphertext ++ "|" ++ e.nonce ++ "|" ++ e.tag
  parseEncData := fun s =>
    match splitCh '|' s.data with
    | [a, b, c] => some ⟨String.mk a, String.mk b, String.mk c⟩
    | _ => none
  jsonStrList := fun l => String.mk (unaryEncodeList (l.map String.length))
  parseJsonStrList := fun _ => none
  pbkdf2_len := by intro p s i n; simp
  aead_roundtrip := by
    intro k n m
    simp [List.drop_left, List.take_left]
  aead_auth := by
    intro k k' n m _ _ hne
    show (if (m ++ k).drop m.length = k' then some ((m ++ k).take m.length) else none) = none
    rw [List.drop_left]
    exact if_neg hne
  aead_split := by intro k n m; simp
  aead_detached_fails := by
    intro k n m hk
    show (if m.drop m.length = k then some (m.take m.length) else none) = none
    rw [List.drop_length]
    rw [if_neg]
    intro h
    rw [← h] at hk
    simp at hk
  b64_roundtrip := by
    intro l
    simpa using unaryDecode_encode l
  utf8_roundtrip := by
    intro s
    have h : (List.map Char.toNat s.data).map Char.ofNat = s.data := by
      rw [List.map_map]
      have h2 : (Char.ofNat ∘ Char.toNat) = id := funext fun c => Char.ofNat_toNat c
      rw [h2, List.map_id]
    simp only [h]

/-! ## Claims C6, C7, C8 -/

/-- Claim C6: for every password, salt and iteration count, `derive_key`
fails if and only if the salt is shorter than 32 bytes; when the iteration
count is below 100 000 it substitutes the safe default (100 000) instead
of failing or proceeding with the weak value; otherwise it uses the given
count; and on success it returns the 32-byte PBKDF2-HMAC-SHA-256 output. -/
theorem claimC6_derive_key (P : CryptoPrims) (pw : String) (salt : List Nat)
    (iters : Nat) :
    (derive_key P pw salt iters = .error ("Salt must be at least 32 bytes")
        ↔ salt.length < 32) ∧
    (salt.length ≥ 32 → iters < 100000 →
      derive_key P pw salt iters
        = .ok (P.pbkdf2 (P.utf8encode pw) salt 100000 32)) ∧
    (salt.length ≥ 32 → iters ≥ 100000 →
      derive_key P pw salt iters
        = .ok (P.pbkdf2 (P.utf8encode pw) salt iters 32)) ∧
    (∀ key, derive_key P pw salt iters = .ok key → key.length = 32) := by
  simp only [derive_key, SALT_LENGTH, KEY_LENGTH, DEFAULT_ITERATIONS]
  by_cases hs : salt.length < 32
  · rw [if_pos hs]
    exact ⟨by simp [hs], fun h1 _ => by omega, fun h1 _ => by omega,
      fun key hk => by simp at hk⟩
  · rw [if_neg hs]
    refine ⟨⟨fun h => by simp at h, fun h => absurd h hs⟩,
      fun _ hi => by rw [if_pos hi], fun _ hi => by rw [if_neg (by omega)],
      fun key hk => ?_⟩
    have h2 : P.pbkdf2 (P.utf8encode pw) salt
        (if iters < 100000 then 100000 else iters) 32 = key := by
      simpa using hk
    rw [← h2]
    exact P.pbkdf2_len _ _ _ _

/-- Claim C6 witness: a 31-byte salt is rejected, a 32-byte salt is
accepted, and 99 999 iterations are substituted with 100 000. -/
theorem claimC6_derive_key_witness :
    derive_key toyPrims ("pw") (List.replicate 31 0) 100000
      = .error ("Salt must be at least 32 bytes") ∧
    derive_key toyPrims ("pw") (List.replicate 32 0) 99999
      = .ok (toyPrims.pbkdf2 (toyPrims.utf8encode ("pw")) (List.replicate 32 0) 100000 32) ∧
    derive_key toyPrims ("pw") (List.replicate 32 0) 256000
      = .ok (toyPrims.pbkdf2 (toyPrims.utf8encode ("pw")) (List.replicate 32 0) 256000 32) :=
  ⟨(claimC6_derive_key toyPrims ("pw") (List.replicate 31 0) 100000).1.mpr (by decide),
   (claimC6_derive_key toyPrims ("pw") (List.replicate 32 0) 99999).2.1 (by decide) (by decide),
   (claimC6_derive_key toyPrims ("pw") (List.replicate 32 0) 256000).2.2.1 (by decide) (by decide)⟩

/-- Claim C7: for every key and plaintext, decrypting the envelope produced
by `encrypt_text` under the same key returns the plaintext; and decrypting
it under any other 32-byte key fails (with the code's single
undifferentiated error). -/
theorem claimC7_encrypt_decrypt (P : CryptoPrims) (k1 k2 nonce : List Nat)
    (p : String) :
    decrypt_text P (encrypt_text P p k1 nonce) k1 = .ok p ∧
    (k1.length = 32 → k2.length = 32 → k1 ≠ k2 →
      decrypt_text P (encrypt_text P p k1 nonce) k2
        = .error ("Decryption failed. Invalid key or corrupted data.")) := by
  constructor
  · simp [decrypt_text, encrypt_text, P.b64_roundtrip, P.aead_roundtrip,
      P.utf8_roundtrip]
  · intro h1 h2 hne
    simp [decrypt_text, encrypt_text, P.b64_roundtrip,
      P.aead_auth k1 k2 nonce _ h1 h2 hne]

/-- Claim C7 witness: concrete round-trip and wrong-key failure. -/
theorem claimC7_encrypt_decrypt_witness :
    decrypt_text toyPrims (encrypt_text toyPrims ("hi") (List.replicate 32 0) [7])
      (List.replicate 32 0) = .ok ("hi") ∧
    decrypt_text toyPrims (encrypt_text toyPrims ("hi") (List.replicate 32 0) [7])
      (List.replicate 32 1)
      = .error ("Decryption failed. Invalid key or corrupted data.") :=
  ⟨(claimC7_encrypt_decrypt toyPrims (List.replicate 32 0) (List.replicate 32 1)
      [7] ("hi")).1,
   (claimC7_encrypt_decrypt toyPrims (List.replicate 32 0) (List.replicate 32 1)
      [7] ("hi")).2 (by decide) (by decide) (by decide)⟩

/-- Claim C8 (amended): `decrypt_text` never reads the envelope's `tag`
field — its result is invariant under replacing that field — and the
embedded-tag form produced by `encrypt_text` (tag at the tail of the
ciphertext, `tag` field empty) decrypts to the plaintext.  An envelope
carrying the tag only in the `tag` field, with a ciphertext that does not
include it, is therefore not decrypted by consulting the field. -/
theorem claimC8_tag_field (P : CryptoPrims) (e : EncryptedData) (t t' : String)
    (k nonce : List Nat) (p : String) :
    decrypt_text P { e with tag := t } k = decrypt_text P { e with tag := t' } k ∧
    decrypt_text P (encrypt_text P p k nonce) k = .ok p := by
  constructor
  · rfl
  · simp [decrypt_text, encrypt_text, P.b64_roundtrip, P.aead_roundtrip,
      P.utf8_roundtrip]

/-- Key used in the C8 counterexample. -/
def c8key : List Nat := List.replicate 32 2

/-- Message bytes used in the C8 counterexample. -/
def c8msg : List Nat := toyPrims.utf8encode ("hi")

/-- The combined-form envelope of the C8 counterexample. -/
def c8combined : EncryptedData := encrypt_text toyPrims ("hi") c8key [3]

/-- The same encryption as `c8combined` but in separate-tag form: the
ciphertext field holds only the body, the `tag` field holds the tag. -/
def c8detached : EncryptedData :=
  { ciphertext := toyPrims.b64encode (toyPrims.aeadBody c8key [3] c8msg)
    nonce := toyPrims.b64encode [3]
    tag := toyPrims.b64encode (toyPrims.aeadTag c8key [3] c8msg) }

/-- Claim C8 counterexample: the combined envelope (whose ciphertext is
body ++ tag and whose `tag` field is empty) decrypts, but the same
encryption presented in separate-tag form fails to decrypt, refuting
"a valid envelope in either form decrypts to the plaintext". -/
theorem claimC8_counterexample :
    c8combined.ciphertext
      = toyPrims.b64encode (toyPrims.aeadBody c8key [3] c8msg
          ++ toyPrims.aeadTag c8key [3] c8msg) ∧
    c8combined.tag = "" ∧
    decrypt_text toyPrims c8combined c8key = .ok ("hi") ∧
    decrypt_text toyPrims c8detached c8key
      = .error ("Decryption failed. Invalid key or corrupted data.") := by
  set_option maxRecDepth 4000 in
  refine ⟨rfl, rfl, ?_, ?_⟩ <;> rfl

/-! ## Relay service (`server/src/api/sync.rs`)

The `notes` table's upsert runs `ON CONFLICT(id) DO UPDATE`, which is valid
SQLite only with a unique index on `id` alone (the schema also has
foreign-key cascades from `notes.id`, requiring the same), so the table is
modelled as a list of rows in which `id` is the upsert key.  Boolean
columns are stored as the integers the handler writes.  The `tags` column
stores the serde-JSON of the tag vector.  `syntax_language` columns and
fields are named `synLang` here. -/

/-- `AttachmentRef` from `server/src/models/sync.rs`. -/
structure AttachmentRefMsg where
  id : String
  filename : String
  mime_type : String
  size : Int
  data : String
  deriving DecidableEq, Repr

/-- `SyncNote` from `server/src/models/sync.rs` (the wire form). -/
structure SyncNoteMsg where
  id : String
  created_at : String
  modified_at : String
  content : String
  tags : List String
  attachments : List AttachmentRefMsg
  pinned : Bool
  deleted : Bool
  deleted_at : Option String
  version : Int
  word_wrap : Option Bool
  synLang : Option String
  deriving DecidableEq, Repr

/-- A row of the relay's `notes` table. -/
structure ServerNoteRow where
  id : String
  client_id : String
  created_at : String
  modified_at : String
  server_modified_at : String
  content : String
  tags : String
  pinned : Int
  deleted : Int
  deleted_at : Option String
  version : Int
  server_version : Int
  word_wrap : Option Int
  synLang : Option String
  deriving DecidableEq, Repr

/-- A row of the relay's `attachments_meta` table. -/
structure AttachmentMetaRow where
  id : String
  note_id : String
  filename : String
  mime_type : String
  size : Int
  created_at : String
  deriving DecidableEq, Repr

/-- A row of the relay's `attachments_data` table. -/
structure AttachmentDataRow where
  id : String
  data : List Nat
  created_at : String
  deriving DecidableEq, Repr

/-- The relay's persisted state. -/
structure ServerDb where
  notes : List ServerNoteRow
  attachments_meta : List AttachmentMetaRow
  attachments_data : List AttachmentDataRow
  deriving DecidableEq, Repr

/-- `SyncAccepted` (server side). -/
structure SyncAcceptedMsg where
  id : String
  server_version : Int
  synced_at : String
  deriving DecidableEq, Repr

/-- `SyncRejected` (server side). -/
structure SyncRejectedMsg where
  id : String
  reason : String
  server_modified_at : String
  deriving DecidableEq, Repr

/-- `SyncAttachment` (push payload attachment, base64 data). -/
structure SyncAttachmentMsg where
  id : String
  data : String
  deriving DecidableEq, Repr

/-- Rust `bool` stored into an SQLite integer column. -/
def boolToInt (b : Bool) : Int := if b then 1 else 0

/-- The `SELECT modified_at, server_version FROM notes WHERE id = ? AND
client_id = ?` lookup of the push handler. -/
def findExisting (notes : List ServerNoteRow) (cid id : String) :
    Option ServerNoteRow :=
  notes.find? (fun r => r.id == id && r.client_id == cid)

/-- Effect of `ON CONFLICT(id) DO UPDATE SET ...` on the conflicting row:
every column except `id`, `client_id` and `created_at` is replaced by the
excluded (incoming) row's value. -/
def overwriteRow (old new : ServerNoteRow) : ServerNoteRow :=
  { new with id := old.id, client_id := old.client_id, created_at := old.created_at }

/-- `INSERT INTO notes ... ON CONFLICT(id) DO UPDATE SET ...`. -/
def upsertNote (notes : List ServerNoteRow) (row : ServerNoteRow) :
    List ServerNoteRow :=
  if notes.any (fun r => r.id == row.id) then
    notes.map (fun r => if r.id == row.id then overwriteRow r row else r)
  else
    notes ++ [row]

/-- The row the push handler binds into the upsert for an accepted note. -/
def rowFromPush (P : CryptoPrims) (cid now : String) (n : SyncNoteMsg)
    (sv : Int) : ServerNoteRow :=
  { id := n.id
    client_id := cid
    created_at := n.created_at
    modified_at := n.modified_at
    server_modified_at := now
    content := n.content
    tags := P.jsonStrList n.tags
    pinned := boolToInt n.pinned
    deleted := boolToInt n.deleted
    deleted_at := n.deleted_at
    version := n.version
    server_version := sv
    word_wrap := n.word_wrap.map boolToInt
    synLang := n.synLang }

/-- Per-note outcome of the push loop. -/
inductive PushNoteOutcome where
  | accepted (a : SyncAcceptedMsg)
  | rejected (r : SyncRejectedMsg)
  deriving DecidableEq, Repr

/-- One iteration of the push handler's per-note loop (lines 95-209 of
`sync.rs`): look up `(id, client_id)`, accept a new note or a strictly
newer `modified_at`, compute the new `server_version`, upsert; otherwise
reject with the literal reason and the stored `modified_at`. -/
def pushNote (P : CryptoPrims) (cid now : String)
    (notes : List ServerNoteRow) (n : SyncNoteMsg) :
    List ServerNoteRow × PushNoteOutcome :=
  let existing := findExisting notes cid n.id
  let should_accept :=
    match existing with
    | none => true
    | some e => strLt e.modified_at n.modified_at
  if should_accept then
    let sv : Int :=
      match existing with
      | some e => e.server_version + 1
      | none => 1
    (upsertNote notes (rowFromPush P cid now n sv),
      .accepted { id := n.id, server_version := sv, synced_at := now })
  else
    (notes,
      .rejected
        { id := n.id
          reason := "Server version is newer"
          server_modified_at :=
            match existing with
            | some e => e.modified_at
            | none => now })
    -- the `none` branch mirrors `existing.unwrap()` and is unreachable:
    -- `should_accept` is false only when `existing` is `some`.

/-- `INSERT INTO attachments_meta ... ON CONFLICT(id) DO UPDATE SET
filename, mime_type, size` (note_id and created_at keep their old values
on conflict). -/
def upsertAttachmentMeta (metas : List AttachmentMetaRow)
    (noteId now : String) (a : AttachmentRefMsg) : List AttachmentMetaRow :=
  if metas.any (fun m => m.id == a.id) then
    metas.map (fun m =>
      if m.id == a.id then
        { m with filename := a.filename, mime_type := a.mime_type, size := a.size }
      else m)
  else
    metas ++ [{ id := a.id, note_id := noteId, filename := a.filename,
                mime_type := a.mime_type, size := a.size, created_at := now }]

/-- Accumulator of the push handler. -/
structure PushState where
  db : ServerDb
  accepted : List SyncAcceptedMsg
  rejected : List SyncRejectedMsg
  deriving DecidableEq, Repr

/-- The push handler's loop over `push_req.notes`. -/
def pushNotesLoop (P : CryptoPrims) (cid now : String) (st : PushState) :
    List SyncNoteMsg → PushState
  | [] => st
  | n :: rest =>
    let step := pushNote P cid now st.db.notes n
    match step.2 with
    | .accepted a =>
      let metas' := n.attachments.foldl
        (fun ms ar => upsertAttachmentMeta ms n.id now ar)
        st.db.attachments_meta
      pushNotesLoop P cid now
        { st with
          db := { st.db with notes := step.1, attachments_meta := metas' }
          accepted := st.accepted ++ [a] }
        rest
    | .rejected r =>
      pushNotesLoop P cid now { st with rejected := st.rejected ++ [r] } rest

/-- The push handler's loop over `push_req.attachments`: base64-decode and
upsert into `attachments_data`; a malformed base64 aborts the request with
a 400, but rows already written stay written (no transaction). -/
def pushAttachmentsLoop (P : CryptoPrims) (now : String)
    (dat : List AttachmentDataRow) :
    List SyncAttachmentMsg → List AttachmentDataRow × Option String
  | [] => (dat, none)
  | a :: rest =>
    match P.b64decode a.data with
    | none => (dat, some ("Invalid base64"))
    | some bytes =>
      let dat' :=
        if dat.any (fun d => d.id == a.id) then
          dat.map (fun d => if d.id == a.id then { d with data := bytes } else d)
        else
          dat ++ [{ id := a.id, data := bytes, created_at := now }]
      pushAttachmentsLoop P now dat' rest

/-- `SyncPushResponse` (server side). -/
structure SyncPushResponseMsg where
  accepted : List SyncAcceptedMsg
  rejected : List SyncRejectedMsg
  errors : List String
  deriving DecidableEq, Repr

/-- The whole `push` handler: run the per-note loop, then the attachment
data loop; `now` is the single `chrono::Utc::now()` reading taken at the
top of the handler. -/
def push (P : CryptoPrims) (cid now : String) (db : ServerDb)
    (reqNotes : List SyncNoteMsg) (reqAttachments : List SyncAttachmentMsg) :
    ServerDb × Except String SyncPushResponseMsg :=
  let st := pushNotesLoop P cid now ⟨db, [], []⟩ reqNotes
  let datStep := pushAttachmentsLoop P now st.db.attachments_data reqAttachments
  let db' := { st.db with attachments_data := datStep.1 }
  match datStep.2 with
  | some e => (db', .error e)
  | none => (db', .ok { accepted := st.accepted, rejected := st.rejected, errors := [] })

/-- Insert a row into a list sorted ascending by `server_modified_at`
(model of `ORDER BY server_modified_at`). -/
def insertRowBySMT (r : ServerNoteRow) : List ServerNoteRow → List ServerNoteRow
  | [] => [r]
  | x :: xs =>
    if strLt x.server_modified_at r.server_modified_at then x :: insertRowBySMT r xs
    else r :: x :: xs

/-- Sort rows ascending by `server_modified_at`. -/
def sortBySMT : List ServerNoteRow → List ServerNoteRow
  | [] => []
  | x :: xs => insertRowBySMT x (sortBySMT xs)

/-- The pull handler's row selection: `WHERE client_id = ? [AND
server_modified_at > ?] ORDER BY server_modified_at`. -/
def pullRows (cid : String) (lastSync : Option String)
    (notes : List ServerNoteRow) : List ServerNoteRow :=
  sortBySMT (notes.filter (fun r =>
    r.client_id == cid &&
      match lastSync with
      | some t => strLt t r.server_modified_at
      | none => true))

/-- Conversion of a stored row back to the wire form, joining
`attachments_meta` on `note_id` (pull handler, lines 315-357). -/
def rowToSyncNote (P : CryptoPrims) (metas : List AttachmentMetaRow)
    (r : ServerNoteRow) : SyncNoteMsg :=
  { id := r.id
    created_at := r.created_at
    modified_at := r.modified_at
    content := r.content
    tags := (P.parseJsonStrList r.tags).getD []
    attachments := (metas.filter (fun m => m.note_id == r.id)).map (fun m =>
      { id := m.id, filename := m.filename, mime_type := m.mime_type,
        size := m.size, data := m.id })
    pinned := r.pinned != 0
    deleted := r.deleted != 0
    deleted_at := r.deleted_at
    version := r.version
    word_wrap := r.word_wrap.map (fun w => w != 0)
    synLang := r.synLang }

/-- `SyncPullResponse` (server side; `deletions` ids with timestamps are
never produced — the handler always returns an empty vector). -/
structure SyncPullResponseMsg where
  notes : List SyncNoteMsg
  deletions : List String
  attachments : List SyncAttachmentMsg
  synced_at : String
  deriving DecidableEq, Repr

/-- The whole `pull` handler.  `now` is the `Utc::now()` read for
`synced_at`. -/
def pull (P : CryptoPrims) (cid now : String) (db : ServerDb)
    (lastSync : Option String) : SyncPullResponseMsg :=
  let rows := pullRows cid lastSync db.notes
  let notes := rows.map (rowToSyncNote P db.attachments_meta)
  let neededIds := notes.foldl (fun acc n => acc ++ n.attachments.map (·.id)) []
  let attachments := neededIds.foldl (fun acc aid =>
    match db.attachments_data.find? (fun d => d.id == aid) with
    | some d => acc ++ [{ id := d.id, data := P.b64encode d.data }]
    | none => acc) []
  { notes := notes, deletions := [], attachments := attachments, synced_at := now }

/-! ## Claim C1 -/

/-- Definition following the words of claim C1: the per-note decision as
the claim states it, keyed by the `(id, client_id)` pair — in particular,
when no row exists for that pair, a fresh row (with `server_version` 1) is
inserted, and an update touches only the row of that pair. -/
def pushNoteClaimC1 (P : CryptoPrims) (cid now : String)
    (notes : List ServerNoteRow) (n : SyncNoteMsg) :
    List ServerNoteRow × PushNoteOutcome :=
  match findExisting notes cid n.id with
  | none =>
    (notes ++ [rowFromPush P cid now n 1],
      .accepted { id := n.id, server_version := 1, synced_at := now })
  | some e =>
    if strLt e.modified_at n.modified_at then
      (notes.map (fun r =>
        if r.id == n.id && r.client_id == cid then
          overwriteRow r (rowFromPush P cid now n (e.server_version + 1))
        else r),
        .accepted { id := n.id, server_version := e.server_version + 1,
                    synced_at := now })
    else
      (notes,
        .rejected { id := n.id, reason := "Server version is newer",
                    server_modified_at := e.modified_at })

/-- Row stored under client `B` in the C1/C3/C5 counterexamples. -/
def c1rowB : ServerNoteRow :=
  { id := "n1", client_id := "B", created_at := "T0", modified_at := "T0"
    server_modified_at := "T0", content := "old-content", tags := ""
    pinned := 0, deleted := 0, deleted_at := none, version := 1
    server_version := 1, word_wrap := none, synLang := none }

/-- Note pushed by client `A` in the C1 counterexample. -/
def c1noteA : SyncNoteMsg :=
  { id := "n1", created_at := "T1", modified_at := "T1"
    content := "new-content", tags := [], attachments := []
    pinned := false, deleted := false, deleted_at := none, version := 1
    word_wrap := none, synLang := none }

/-- Claim C1 counterexample: client `B` holds note `n1`; client `A` pushes
a note with the same id.  No row exists for `(n1, A)`, so the claim says a
row is inserted for that pair — but the code's `ON CONFLICT(id)` upsert
instead rewrites `B`'s row in place (keeping `client_id = B`), so after
the push there is still no row for `(n1, A)` and `B`'s row now carries
`A`'s content. -/
theorem claimC1_counterexample :
    findExisting [c1rowB] ("A") ("n1") = none ∧
    (pushNote toyPrims ("A") ("T1") [c1rowB] c1noteA).1
      ≠ (pushNoteClaimC1 toyPrims ("A") ("T1") [c1rowB] c1noteA).1 ∧
    ((pushNote toyPrims ("A") ("T1") [c1rowB] c1noteA).1.find?
      (fun r => r.id == "n1" && r.client_id == "A")) = none ∧
    ((pushNoteClaimC1 toyPrims ("A") ("T1") [c1rowB] c1noteA).1.find?
      (fun r => r.id == "n1" && r.client_id == "A")).isSome = true ∧
    ((pushNote toyPrims ("A") ("T1") [c1rowB] c1noteA).1.find?
      (fun r => r.id == "n1" && r.client_id == "B")).map (fun r => r.content)
      = some ("new-content") := by
  decide

/-- Claim C1 (amended): the relay's per-note decision is as claimed —
absent `(id, client_id)` pair: accept with `server_version = 1`; present
with strictly newer `modified_at`: accept, `server_modified_at := now`,
`server_version := stored + 1`; otherwise reject with the literal reason
and the stored `modified_at` — except that the write is an upsert keyed on
`id` alone: a genuine insert happens only when the id is absent from the
whole table, and an accept rewrites the (unique) row of that id in place,
whatever client it belongs to, keeping its `id`, `client_id` and
`created_at`. -/
theorem claimC1_push_note_decision (P : CryptoPrims) (cid now : String)
    (notes : List ServerNoteRow) (n : SyncNoteMsg) :
    (findExisting notes cid n.id = none →
      (pushNote P cid now notes n).2
        = .accepted { id := n.id, server_version := 1, synced_at := now } ∧
      ((∀ r ∈ notes, r.id ≠ n.id) →
        (pushNote P cid now notes n).1 = notes ++ [rowFromPush P cid now n 1])) ∧
    (∀ e, findExisting notes cid n.id = some e →
      (strLt e.modified_at n.modified_at = true →
        (pushNote P cid now notes n).2
          = .accepted { id := n.id, server_version := e.server_version + 1,
                        synced_at := now } ∧
        (pushNote P cid now notes n).1
          = notes.map (fun r =>
              if r.id == n.id then
                overwriteRow r (rowFromPush P cid now n (e.server_version + 1))
              else r)) ∧
      (strLt e.modified_at n.modified_at = false →
        (pushNote P cid now notes n).2
          = .rejected { id := n.id, reason := "Server version is newer",
                        server_modified_at := e.modified_at } ∧
        (pushNote P cid now notes n).1 = notes)) := by
  constructor
  · intro h
    constructor
    · simp [pushNote, h]
    · intro hfresh
      have hany : notes.any (fun r => r.id == (rowFromPush P cid now n 1).id)
          = false := by
        rw [List.any_eq_false]
        intro r hr
        simpa [rowFromPush] using hfresh r hr
      simp [pushNote, h, upsertNote, hany]
  · intro e he
    have hmem := List.mem_of_find?_eq_some he
    have hpred := List.find?_some he
    have hid : e.id = n.id := by
      simp only [Bool.and_eq_true, beq_iff_eq] at hpred
      exact hpred.1
    refine ⟨fun hlt => ⟨?_, ?_⟩, fun hnlt => ⟨?_, ?_⟩⟩
    · simp [pushNote, he, hlt]
    · have hany : notes.any
          (fun r => r.id == (rowFromPush P cid now n (e.server_version + 1)).id)
          = true := by
        rw [List.any_eq_true]
        exact ⟨e, hmem, by simp [rowFromPush, hid]⟩
      have hp : (pushNote P cid now notes n).1
          = upsertNote notes (rowFromPush P cid now n (e.server_version + 1)) := by
        simp [pushNote, he, hlt]
      rw [hp]
      simp only [upsertNote, hany, if_true]
      rfl
    · simp [pushNote, he, hnlt]
    · simp [pushNote, he, hnlt]

/-- Note used in the C1 witness. -/
def c1wNote : SyncNoteMsg :=
  { id := "w1", created_at := "c", modified_at := "m5", content := "x"
    tags := [], attachments := [], pinned := false, deleted := false
    deleted_at := none, version := 1, word_wrap := none, synLang := none }

/-- Claim C1 witness: a push into an empty table inserts the row and
reports `server_version = 1`. -/
theorem claimC1_push_note_decision_witness :
    (pushNote toyPrims ("W") ("T0") [] c1wNote).1
      = [rowFromPush toyPrims ("W") ("T0") c1wNote 1] ∧
    (pushNote toyPrims ("W") ("T0") [] c1wNote).2
      = .accepted { id := "w1", server_version := 1, synced_at := "T0" } := by
  have h := claimC1_push_note_decision toyPrims ("W") ("T0") [] c1wNote
  exact ⟨by simpa using (h.1 (by decide)).2 (by simp), (h.1 (by decide)).1⟩

/-! ## Claim C5 -/

/-- Lookup of the (unique) `notes` row of an id. -/
def findById (notes : List ServerNoteRow) (id : String) : Option ServerNoteRow :=
  notes.find? (fun r => r.id == id)

/-- The stored `server_version` of an id, when a row exists. -/
def svAt (notes : List ServerNoteRow) (id : String) : Option Int :=
  (findById notes id).map (fun r => r.server_version)

/-- Sequential pushes of single notes by one client, each with its own
server clock reading, exactly as the push handler's loop processes them;
returns the final `notes` table and the per-note outcomes in order. -/
def runPushSeq (P : CryptoPrims) (cid : String) (notes : List ServerNoteRow) :
    List (String × SyncNoteMsg) → List ServerNoteRow × List PushNoteOutcome
  | [] => (notes, [])
  | (now, n) :: rest =>
    let step := pushNote P cid now notes n
    let r := runPushSeq P cid step.1 rest
    (r.1, step.2 :: r.2)

/-- The `server_version`s carried by the accepted outcomes for an id, in
push order. -/
def acceptedVersions (id : String) (outs : List PushNoteOutcome) : List Int :=
  outs.filterMap (fun o =>
    match o with
    | .accepted a => if a.id == id then some a.server_version else none
    | .rejected _ => none)

/-- The list `[k+1, k+2, …, k+n]`. -/
def consecFrom (k : Int) : Nat → List Int
  | 0 => []
  | n + 1 => (k + 1) :: consecFrom (k + 1) n

theorem findById_cons (r : ServerNoteRow) (t : List ServerNoteRow) (id : String) :
    findById (r :: t) id = if r.id = id then some r else findById t id := by
  by_cases hr : r.id = id
  · rw [if_pos hr]
    exact List.find?_cons_of_pos _ (by simp [hr])
  · rw [if_neg hr]
    exact List.find?_cons_of_neg _ (by simp [hr])

theorem findById_map_guard (notes : List ServerNoteRow) (nid id : String)
    (g : ServerNoteRow → ServerNoteRow) (hg : ∀ r, (g r).id = r.id) :
    findById (notes.map (fun r => if r.id == nid then g r else r)) id
      = (findById notes id).map (fun r => if r.id == nid then g r else r) := by
  induction notes with
  | nil => rfl
  | cons r t ih =>
    have hfid : (if r.id == nid then g r else r).id = r.id := by
      by_cases hn : r.id = nid <;> simp [hn, hg]
    simp only [List.map_cons, findById_cons, hfid]
    by_cases hr : r.id = id
    · simp [hr]
    · simp only [if_neg hr]
      exact ih

theorem findById_append_of_none (notes : List ServerNoteRow)
    (row : ServerNoteRow) (id : String) (h : findById notes id = none) :
    findById (notes ++ [row]) id = if row.id = id then some row else none := by
  induction notes with
  | nil => simp [findById_cons, findById]
  | cons r t ih =>
    rw [findById_cons] at h
    by_cases hr : r.id = id
    · rw [if_pos hr] at h
      exact absurd h (by simp)
    · rw [if_neg hr] at h
      simpa [findById_cons, hr] using ih h

theorem findById_append_of_some (notes : List ServerNoteRow)
    (row e : ServerNoteRow) (id : String) (h : findById notes id = some e) :
    findById (notes ++ [row]) id = some e := by
  induction notes with
  | nil => simp [findById, List.find?] at h
  | cons r t ih =>
    rw [findById_cons] at h
    by_cases hr : r.id = id
    · rw [if_pos hr] at h
      simpa [findById_cons, hr] using h
    · rw [if_neg hr] at h
      simpa [findById_cons, hr] using ih h

theorem any_id_eq_isSome (notes : List ServerNoteRow) (id : String) :
    notes.any (fun r => r.id == id) = (findById notes id).isSome := by
  induction notes with
  | nil => rfl
  | cons r t ih =>
    rw [List.any_cons, findById_cons]
    by_cases hr : r.id = id
    · simp [hr]
    · simp [hr, ih]

theorem findExisting_cons (r : ServerNoteRow) (t : List ServerNoteRow)
    (cid id : String) :
    findExisting (r :: t) cid id
      = if r.id = id ∧ r.client_id = cid then some r else findExisting t cid id := by
  by_cases h : r.id = id ∧ r.client_id = cid
  · rw [if_pos h]
    exact List.find?_cons_of_pos _ (by simp [h.1, h.2])
  · rw [if_neg h]
    refine List.find?_cons_of_neg _ ?_
    simp only [Bool.and_eq_true, beq_iff_eq]
    intro hc
    exact h hc

theorem findExisting_all_cid (notes : List ServerNoteRow) (cid id : String)
    (hcid : ∀ r ∈ notes, r.client_id = cid) :
    findExisting notes cid id = findById notes id := by
  induction notes with
  | nil => rfl
  | cons r t ih =>
    have hc : r.client_id = cid := hcid r (by simp)
    rw [findExisting_cons, findById_cons]
    have ht := ih (fun x hx => hcid x (by simp [hx]))
    by_cases hr : r.id = id
    · rw [if_pos ⟨hr, hc⟩, if_pos hr]
    · rw [if_neg (fun hcon => hr hcon.1), if_neg hr]
      exact ht

theorem findById_some_id (notes : List ServerNoteRow) (id : String)
    (r : ServerNoteRow) (h : findById notes id = some r) : r.id = id := by
  have := List.find?_some h
  simpa using this

theorem svAt_upsert_self (db : List ServerNoteRow) (row : ServerNoteRow) :
    svAt (upsertNote db row) row.id = some row.server_version := by
  unfold upsertNote
  by_cases hany : db.any (fun r => r.id == row.id) = true
  · rw [if_pos hany]
    have hsome : (findById db row.id).isSome := by
      rw [← any_id_eq_isSome]; exact hany
    obtain ⟨e, he⟩ := Option.isSome_iff_exists.mp hsome
    have hmap := findById_map_guard db row.id row.id
      (fun r => overwriteRow r row) (fun r => rfl)
    rw [svAt, hmap, he]
    have he_id : e.id = row.id := findById_some_id db row.id e he
    simp [he_id, overwriteRow]
  · rw [if_neg hany]
    have hnone : findById db row.id = none := by
      cases hfb : findById db row.id with
      | none => rfl
      | some e => exact absurd (by rw [any_id_eq_isSome, hfb]; rfl) hany
    rw [svAt, findById_append_of_none db row _ hnone, if_pos rfl]
    rfl

theorem svAt_upsert_other (db : List ServerNoteRow) (row : ServerNoteRow)
    (id : String) (hne : row.id ≠ id) :
    svAt (upsertNote db row) id = svAt db id := by
  unfold upsertNote
  by_cases hany : db.any (fun r => r.id == row.id) = true
  · rw [if_pos hany]
    have hmap := findById_map_guard db row.id id
      (fun r => overwriteRow r row) (fun r => rfl)
    rw [svAt, hmap]
    cases hfb : findById db id with
    | none => simp [svAt, hfb]
    | some f =>
      have hf : f.id = id := findById_some_id db id f hfb
      have hff : ¬f.id = row.id := fun hcon => hne (hcon.symm.trans hf)
      simp [svAt, hfb, hff]
  · rw [if_neg hany]
    cases hfb : findById db id with
    | none =>
      rw [svAt, findById_append_of_none db row _ hfb, if_neg (fun h => hne h)]
      simp [svAt, hfb]
    | some f =>
      rw [svAt, findById_append_of_some db row f _ hfb]
      simp [svAt, hfb]

theorem upsert_cid (db : List ServerNoteRow) (row : ServerNoteRow)
    (cid : String) (hcid : ∀ r ∈ db, r.client_id = cid)
    (hrow : row.client_id = cid) :
    ∀ r ∈ upsertNote db row, r.client_id = cid := by
  unfold upsertNote
  by_cases hany : db.any (fun r => r.id == row.id) = true
  · rw [if_pos hany]
    intro r hr
    obtain ⟨x, hx, hfx⟩ := List.mem_map.mp hr
    by_cases hid : (x.id == row.id) = true
    · rw [if_pos hid] at hfx
      rw [← hfx]
      simpa [overwriteRow] using hcid x hx
    · rw [if_neg hid] at hfx
      rw [← hfx]
      exact hcid x hx
  · rw [if_neg hany]
    intro r hr
    rcases List.mem_append.mp hr with h | h
    · exact hcid r h
    · rw [List.mem_singleton.mp h]
      exact hrow

theorem pushNote_outcome_and_db (P : CryptoPrims) (cid now : String)
    (db : List ServerNoteRow) (n : SyncNoteMsg)
    (hcid : ∀ r ∈ db, r.client_id = cid) :
    match findById db n.id with
    | none =>
        pushNote P cid now db n
          = (upsertNote db (rowFromPush P cid now n 1),
             .accepted { id := n.id, server_version := 1, synced_at := now })
    | some e =>
        if strLt e.modified_at n.modified_at = true then
          pushNote P cid now db n
            = (upsertNote db (rowFromPush P cid now n (e.server_version + 1)),
               .accepted { id := n.id, server_version := e.server_version + 1,
                           synced_at := now })
        else
          pushNote P cid now db n
            = (db, .rejected { id := n.id, reason := "Server version is newer",
                               server_modified_at := e.modified_at }) := by
  have hfe := findExisting_all_cid db cid n.id hcid
  cases hfb : findById db n.id with
  | none => simp [pushNote, hfe, hfb]
  | some e =>
    by_cases hlt : strLt e.modified_at n.modified_at = true
    · simp [pushNote, hfe, hfb, hlt]
    · simp only [hlt, if_false]
      simp [pushNote, hfe, hfb, hlt]

theorem length_consecFrom (k : Int) (n : Nat) : (consecFrom k n).length = n := by
  induction n generalizing k with
  | zero => rfl
  | succ m ih => simp [consecFrom, ih]

theorem runPushSeq_invariant (P : CryptoPrims) (cid id : String)
    (trace : List (String × SyncNoteMsg)) :
    ∀ db : List ServerNoteRow, (∀ r ∈ db, r.client_id = cid) →
      (∀ r ∈ (runPushSeq P cid db trace).1, r.client_id = cid) ∧
      acceptedVersions id (runPushSeq P cid db trace).2
        = consecFrom ((svAt db id).getD 0)
            (acceptedVersions id (runPushSeq P cid db trace).2).length ∧
      svAt (runPushSeq P cid db trace).1 id
        = (if acceptedVersions id (runPushSeq P cid db trace).2 = []
           then svAt db id
           else some ((svAt db id).getD 0
               + (acceptedVersions id (runPushSeq P cid db trace).2).length)) := by
  induction trace with
  | nil =>
    intro db hcid
    refine ⟨hcid, ?_, ?_⟩ <;> simp [runPushSeq, acceptedVersions, consecFrom]
  | cons hd rest ih =>
    obtain ⟨now, n⟩ := hd
    intro db hcid
    have hstep := pushNote_outcome_and_db P cid now db n hcid
    cases hfb : findById db n.id with
    | none =>
      simp only [hfb] at hstep
      have hdb' : ∀ r ∈ upsertNote db (rowFromPush P cid now n 1),
          r.client_id = cid := upsert_cid db _ cid hcid rfl
      obtain ⟨ih1, ih2, ih3⟩ := ih (upsertNote db (rowFromPush P cid now n 1)) hdb'
      have hrun : runPushSeq P cid db ((now, n) :: rest)
          = ((runPushSeq P cid (upsertNote db (rowFromPush P cid now n 1)) rest).1,
             PushNoteOutcome.accepted
                 { id := n.id, server_version := 1, synced_at := now }
               :: (runPushSeq P cid (upsertNote db (rowFromPush P cid now n 1))
                   rest).2) := by
        simp [runPushSeq, hstep]
      rw [hrun]
      have hsv1 : svAt (upsertNote db (rowFromPush P cid now n 1)) n.id
          = some 1 := svAt_upsert_self db (rowFromPush P cid now n 1)
      by_cases hid : n.id = id
      · subst hid
        have hsv0 : svAt db n.id = none := by rw [svAt, hfb]; rfl
        rw [hsv1] at ih2 ih3
        have hcons : ∀ outs, acceptedVersions n.id
            (PushNoteOutcome.accepted
              { id := n.id, server_version := 1, synced_at := now } :: outs)
            = 1 :: acceptedVersions n.id outs := by
          intro outs
          simp [acceptedVersions]
        refine ⟨ih1, ?_, ?_⟩
        · rw [hcons, hsv0]
          simp only [Option.getD_none, List.length_cons, consecFrom, Int.zero_add]
          rw [ih2]
          simp [length_consecFrom]
        · rw [hcons, hsv0]
          simp only [List.length_cons, Option.getD_none]
          rw [if_neg (by simp), ih3]
          by_cases hvs : acceptedVersions n.id
              (runPushSeq P cid (upsertNote db (rowFromPush P cid now n 1)) rest).2
              = []
          · rw [if_pos hvs, hvs]
            simp
          · rw [if_neg hvs]
            simp only [Option.getD_some, Option.some.injEq]
            omega
      · have hsv := svAt_upsert_other db (rowFromPush P cid now n 1) id hid
        have hcons : ∀ outs, acceptedVersions id
            (PushNoteOutcome.accepted
              { id := n.id, server_version := 1, synced_at := now } :: outs)
            = acceptedVersions id outs := by
          intro outs
          simp [acceptedVersions, hid]
        refine ⟨ih1, ?_, ?_⟩
        · rw [hcons, ← hsv]
          exact ih2
        · rw [hcons, ← hsv]
          exact ih3
    | some e =>
      simp only [hfb] at hstep
      by_cases hlt : strLt e.modified_at n.modified_at = true
      · rw [if_pos hlt] at hstep
        have hdb' : ∀ r ∈ upsertNote db (rowFromPush P cid now n (e.server_version + 1)),
            r.client_id = cid := upsert_cid db _ cid hcid rfl
        obtain ⟨ih1, ih2, ih3⟩ :=
          ih (upsertNote db (rowFromPush P cid now n (e.server_version + 1))) hdb'
        have hrun : runPushSeq P cid db ((now, n) :: rest)
            = ((runPushSeq P cid
                  (upsertNote db (rowFromPush P cid now n (e.server_version + 1)))
                  rest).1,
               PushNoteOutcome.accepted
                   { id := n.id, server_version := e.server_version + 1,
                     synced_at := now }
                 :: (runPushSeq P cid
                     (upsertNote db (rowFromPush P cid now n (e.server_version + 1)))
                     rest).2) := by
          simp [runPushSeq, hstep]
        rw [hrun]
        have hsv1 : svAt (upsertNote db (rowFromPush P cid now n (e.server_version + 1)))
            n.id = some (e.server_version + 1) :=
          svAt_upsert_self db (rowFromPush P cid now n (e.server_version + 1))
        by_cases hid : n.id = id
        · subst hid
          have hsv0 : svAt db n.id = some e.server_version := by rw [svAt, hfb]; rfl
          rw [hsv1] at ih2 ih3
          have hcons : ∀ outs, acceptedVersions n.id
              (PushNoteOutcome.accepted
                { id := n.id, server_version := e.server_version + 1,
                  synced_at := now } :: outs)
              = (e.server_version + 1) :: acceptedVersions n.id outs := by
            intro outs
            simp [acceptedVersions]
          refine ⟨ih1, ?_, ?_⟩
          · rw [hcons, hsv0]
            simp only [Option.getD_some, List.length_cons, consecFrom]
            rw [ih2]
            simp [length_consecFrom]
          · rw [hcons, hsv0]
            simp only [List.length_cons, Option.getD_some]
            rw [if_neg (by simp), ih3]
            by_cases hvs : acceptedVersions n.id
                (runPushSeq P cid
                  (upsertNote db (rowFromPush P cid now n (e.server_version + 1)))
                  rest).2 = []
            · rw [if_pos hvs, hvs]
              simp
            · rw [if_neg hvs]
              simp only [Option.getD_some, Option.some.injEq]
              omega
        · have hsv := svAt_upsert_other db
            (rowFromPush P cid now n (e.server_version + 1)) id hid
          have hcons : ∀ outs, acceptedVersions id
              (PushNoteOutcome.accepted
                { id := n.id, server_version := e.server_version + 1,
                  synced_at := now } :: outs)
              = acceptedVersions id outs := by
            intro outs
            simp [acceptedVersions, hid]
          refine ⟨ih1, ?_, ?_⟩
          · rw [hcons, ← hsv]
            exact ih2
          · rw [hcons, ← hsv]
            exact ih3
      · rw [if_neg hlt] at hstep
        obtain ⟨ih1, ih2, ih3⟩ := ih db hcid
        have hrun : runPushSeq P cid db ((now, n) :: rest)
            = ((runPushSeq P cid db rest).1,
               PushNoteOutcome.rejected
                   { id := n.id, reason := "Server version is newer",
                     server_modified_at := e.modified_at }
                 :: (runPushSeq P cid db rest).2) := by
          simp [runPushSeq, hstep]
        rw [hrun]
        have hcons : ∀ outs, acceptedVersions id
            (PushNoteOutcome.rejected
              { id := n.id, reason := "Server version is newer",
                server_modified_at := e.modified_at } :: outs)
            = acceptedVersions id outs := by
          intro outs
          simp [acceptedVersions]
        refine ⟨ih1, ?_, ?_⟩
        · rw [hcons]
          exact ih2
        · rw [hcons]
          exact ih3

/-- Claim C5 (amended): restricted to pushes from a single client — the
cross-client upsert exhibited in the counterexample violates the claim as
stated — the relay maintains the claimed discipline: starting from an
empty table, after any sequence of pushes by one client, the accepted
`server_version`s for an id form the sequence 1, 2, 3, …, so the counter
starts at 1, is strictly increasing over accepted writes, and the stored
row's `server_version` equals the total number of accepted writes for that
id (with no row exactly when that count is zero). -/
theorem claimC5_server_version (P : CryptoPrims) (cid : String)
    (trace : List (String × SyncNoteMsg)) (id : String) :
    acceptedVersions id (runPushSeq P cid [] trace).2
      = consecFrom 0 (acceptedVersions id (runPushSeq P cid [] trace).2).length ∧
    svAt (runPushSeq P cid [] trace).1 id
      = (if acceptedVersions id (runPushSeq P cid [] trace).2 = [] then none
         else some ((acceptedVersions id (runPushSeq P cid [] trace).2).length
           : Int)) := by
  obtain ⟨h1, h2, h3⟩ := runPushSeq_invariant P cid id trace [] (by simp)
  have hz : svAt [] id = none := rfl
  constructor
  · rw [hz] at h2
    simpa using h2
  · rw [hz] at h3
    simpa using h3

/-- Note pushed by client `B` in the C5 counterexample. -/
def c5noteB : SyncNoteMsg :=
  { id := "n1", created_at := "T0", modified_at := "T0", content := "from-B"
    tags := [], attachments := [], pinned := false, deleted := false
    deleted_at := none, version := 1, word_wrap := none, synLang := none }

/-- Note pushed by client `A` in the C5 counterexample. -/
def c5noteA : SyncNoteMsg :=
  { id := "n1", created_at := "T2", modified_at := "T2", content := "from-A"
    tags := [], attachments := [], pinned := false, deleted := false
    deleted_at := none, version := 1, word_wrap := none, synLang := none }

/-- Table after `B`'s push in the C5 counterexample. -/
def c5db1 : List ServerNoteRow := (pushNote toyPrims ("B") ("T0") [] c5noteB).1

/-- Table after `A`'s subsequent push in the C5 counterexample. -/
def c5db2 : List ServerNoteRow :=
  (pushNote toyPrims ("A") ("T2") c5db1 c5noteA).1

/-- Claim C5 counterexample: two accepted writes for id `n1` (one from
each client) leave the stored `server_version` at 1 — the counter is
neither strictly increasing over the accepted writes (1 then 1) nor equal
to the number of accepted writes (2). -/
theorem claimC5_counterexample :
    (pushNote toyPrims ("B") ("T0") [] c5noteB).2
      = .accepted { id := "n1", server_version := 1, synced_at := "T0" } ∧
    (pushNote toyPrims ("A") ("T2") c5db1 c5noteA).2
      = .accepted { id := "n1", server_version := 1, synced_at := "T2" } ∧
    svAt c5db2 ("n1") = some 1 := by
  refine ⟨?_, ?_, ?_⟩ <;> decide


/-! ## Claim C3 -/

theorem mem_insertRowBySMT (r x : ServerNoteRow) (l : List ServerNoteRow) :
    x ∈ insertRowBySMT r l ↔ x = r ∨ x ∈ l := by
  induction l with
  | nil => simp [insertRowBySMT]
  | cons y ys ih =>
    by_cases hc : strLt y.server_modified_at r.server_modified_at = true
    · simp only [insertRowBySMT, if_pos hc, List.mem_cons, ih]
      tauto
    · simp only [insertRowBySMT, if_neg hc, List.mem_cons]

theorem mem_sortBySMT (x : ServerNoteRow) (l : List ServerNoteRow) :
    x ∈ sortBySMT l ↔ x ∈ l := by
  induction l with
  | nil => simp [sortBySMT]
  | cons y ys ih =>
    simp only [sortBySMT, mem_insertRowBySMT, List.mem_cons, ih]

theorem filter_and_eq (p q : ServerNoteRow → Bool) (l : List ServerNoteRow) :
    l.filter (fun r => p r && q r) = (l.filter p).filter q := by
  induction l with
  | nil => rfl
  | cons r t ih =>
    by_cases hp : p r = true
    · by_cases hq : q r = true
      · simp [List.filter_cons, hp, hq, ih]
      · simp [List.filter_cons, hp, hq, ih]
    · simp [List.filter_cons, hp, ih]

theorem filter_client_map_guard (db : List ServerNoteRow)
    (row : ServerNoteRow) (B : String)
    (hfr : ∀ r ∈ db, r.id = row.id → r.client_id ≠ B) :
    (db.map (fun r => if r.id == row.id then overwriteRow r row else r)).filter
        (fun r => r.client_id == B)
      = db.filter (fun r => r.client_id == B) := by
  induction db with
  | nil => rfl
  | cons r t ih =>
    have ht := ih (fun x hx => hfr x (by simp [hx]))
    simp only [List.map_cons, List.filter_cons]
    by_cases hid : r.id = row.id
    · have hcB : r.client_id ≠ B := hfr r (by simp) hid
      have h1 : ((if r.id == row.id then overwriteRow r row else r).client_id == B)
          = false := by simp [hid, overwriteRow, hcB]
      have h2 : (r.client_id == B) = false := by simp [hcB]
      simp only [h1, h2, Bool.false_eq_true, if_false]
      exact ht
    · have h0 : (r.id == row.id) = false := by simp [hid]
      simp only [h0, Bool.false_eq_true, if_false]
      by_cases hc : r.client_id = B
      · have hcb : (r.client_id == B) = true := by simp [hc]
        simp only [hcb, if_true]
        rw [ht]
      · have hcb : (r.client_id == B) = false := by simp [hc]
        simp only [hcb, Bool.false_eq_true, if_false]
        exact ht

theorem upsert_filter_other (db : List ServerNoteRow) (row : ServerNoteRow)
    (B : String) (hrowc : row.client_id ≠ B)
    (hfr : ∀ r ∈ db, r.id = row.id → r.client_id ≠ B) :
    (upsertNote db row).filter (fun r => r.client_id == B)
      = db.filter (fun r => r.client_id == B) := by
  unfold upsertNote
  by_cases hany : db.any (fun r => r.id == row.id) = true
  · rw [if_pos hany]
    exact filter_client_map_guard db row B hfr
  · rw [if_neg hany]
    rw [List.filter_append]
    have hrow : List.filter (fun r => r.client_id == B) [row] = [] := by
      simp [hrowc]
    rw [hrow, List.append_nil]

/-- The evolution of the `notes` table alone under the push loop (the
outcome lists and attachment tables do not feed back into it). -/
def pushNotesOnly (P : CryptoPrims) (cid now : String)
    (notes : List ServerNoteRow) : List SyncNoteMsg → List ServerNoteRow
  | [] => notes
  | n :: rest => pushNotesOnly P cid now (pushNote P cid now notes n).1 rest

theorem pushNote_rejected_db (P : CryptoPrims) (cid now : String)
    (db : List ServerNoteRow) (n : SyncNoteMsg) (rj : SyncRejectedMsg)
    (h : (pushNote P cid now db n).2 = .rejected rj) :
    (pushNote P cid now db n).1 = db := by
  cases hfe : findExisting db cid n.id with
  | none => simp [pushNote, hfe] at h
  | some e =>
    by_cases hlt : strLt e.modified_at n.modified_at = true
    · simp [pushNote, hfe, hlt] at h
    · simp [pushNote, hfe, hlt]

theorem pushNote_db_shape (P : CryptoPrims) (cid now : String)
    (db : List ServerNoteRow) (n : SyncNoteMsg) :
    (pushNote P cid now db n).1 = db ∨
    ∃ sv, (pushNote P cid now db n).1
        = upsertNote db (rowFromPush P cid now n sv) := by
  cases hfe : findExisting db cid n.id with
  | none =>
    right
    exact ⟨1, by simp [pushNote, hfe]⟩
  | some e =>
    by_cases hlt : strLt e.modified_at n.modified_at = true
    · right
      exact ⟨e.server_version + 1, by simp [pushNote, hfe, hlt]⟩
    · left
      simp [pushNote, hfe, hlt]

theorem pushNotesLoop_notes (P : CryptoPrims) (cid now : String) :
    ∀ (req : List SyncNoteMsg) (st : PushState),
      (pushNotesLoop P cid now st req).db.notes
        = pushNotesOnly P cid now st.db.notes req := by
  intro req
  induction req with
  | nil => intro st; rfl
  | cons n rest ih =>
    intro st
    cases hstep : (pushNote P cid now st.db.notes n).2 with
    | accepted a =>
      have h1 : pushNotesLoop P cid now st (n :: rest)
          = pushNotesLoop P cid now
              { st with
                db := { st.db with
                        notes := (pushNote P cid now st.db.notes n).1
                        attachments_meta := n.attachments.foldl
                          (fun ms ar => upsertAttachmentMeta ms n.id now ar)
                          st.db.attachments_meta }
                accepted := st.accepted ++ [a] } rest := by
        simp [pushNotesLoop, hstep]
      rw [h1, ih]
      rfl
    | rejected rj =>
      have h1 : pushNotesLoop P cid now st (n :: rest)
          = pushNotesLoop P cid now { st with rejected := st.rejected ++ [rj] }
              rest := by
        simp [pushNotesLoop, hstep]
      rw [h1, ih]
      simp only [pushNotesOnly]
      rw [pushNote_rejected_db P cid now st.db.notes n rj hstep]

theorem upsert_fresh_step (notes : List ServerNoteRow) (row : ServerNoteRow)
    (A : String) (hrow : row.client_id = A) (mid : String)
    (h : ∀ r ∈ notes, r.id = mid → r.client_id = A) :
    ∀ r ∈ upsertNote notes row, r.id = mid → r.client_id = A := by
  intro r hr hid
  unfold upsertNote at hr
  by_cases hany : notes.any (fun x => x.id == row.id) = true
  · rw [if_pos hany] at hr
    obtain ⟨x, hx, hfx⟩ := List.mem_map.mp hr
    by_cases hxid : (x.id == row.id) = true
    · rw [if_pos hxid] at hfx
      rw [← hfx] at hid ⊢
      have hxm : x.id = mid := by simpa [overwriteRow] using hid
      simpa [overwriteRow] using h x hx hxm
    · rw [if_neg hxid] at hfx
      rw [← hfx] at hid ⊢
      exact h x hx hid
  · rw [if_neg hany] at hr
    rcases List.mem_append.mp hr with hh | hh
    · exact h r hh hid
    · rw [List.mem_singleton.mp hh]
      exact hrow

theorem pushNotesOnly_filter_other (P : CryptoPrims) (A B now : String)
    (hBA : B ≠ A) :
    ∀ (req : List SyncNoteMsg) (notes : List ServerNoteRow),
      (∀ n ∈ req, ∀ r ∈ notes, r.id = n.id → r.client_id = A) →
      (pushNotesOnly P A now notes req).filter (fun r => r.client_id == B)
        = notes.filter (fun r => r.client_id == B) := by
  intro req
  induction req with
  | nil => intro notes _; rfl
  | cons n rest ih =>
    intro notes hfresh
    simp only [pushNotesOnly]
    rcases pushNote_db_shape P A now notes n with hdb | ⟨sv, hdb⟩
    · rw [hdb]
      exact ih notes (fun m hm => hfresh m (by simp [hm]))
    · rw [hdb]
      have hfresh' : ∀ m ∈ rest,
          ∀ r ∈ upsertNote notes (rowFromPush P A now n sv),
            r.id = m.id → r.client_id = A := fun m hm =>
        upsert_fresh_step notes (rowFromPush P A now n sv) A rfl m.id
          (hfresh m (by simp [hm]))
      rw [ih _ hfresh']
      apply upsert_filter_other
      · intro hcon
        exact hBA hcon.symm
      · intro r hr hid hcB
        have hrA : r.client_id = A :=
          hfresh n (by simp) r hr (by simpa [rowFromPush] using hid)
        exact hBA (hrA.symm.trans hcB).symm

theorem upsert_uniq (db : List ServerNoteRow) (row : ServerNoteRow)
    (h : db.Pairwise (fun a b => a.id ≠ b.id)) :
    (upsertNote db row).Pairwise (fun a b => a.id ≠ b.id) := by
  unfold upsertNote
  by_cases hany : db.any (fun r => r.id == row.id) = true
  · rw [if_pos hany]
    have hf : ∀ r : ServerNoteRow,
        (if r.id == row.id then overwriteRow r row else r).id = r.id := by
      intro r
      by_cases hc : r.id = row.id <;> simp [hc, overwriteRow]
    refine List.Pairwise.map _ ?_ h
    intro a b hab
    rw [hf a, hf b]
    exact hab
  · rw [if_neg hany]
    rw [List.pairwise_append]
    refine ⟨h, by simp, ?_⟩
    intro a ha b hb
    rw [List.mem_singleton.mp hb]
    intro hcon
    exact hany (by rw [List.any_eq_true]; exact ⟨a, ha, by simp [hcon]⟩)

theorem pushNotesOnly_uniq (P : CryptoPrims) (cid now : String) :
    ∀ (req : List SyncNoteMsg) (notes : List ServerNoteRow),
      notes.Pairwise (fun a b => a.id ≠ b.id) →
      (pushNotesOnly P cid now notes req).Pairwise (fun a b => a.id ≠ b.id) := by
  intro req
  induction req with
  | nil => intro notes h; exact h
  | cons n rest ih =>
    intro notes h
    simp only [pushNotesOnly]
    rcases pushNote_db_shape P cid now notes n with hdb | ⟨sv, hdb⟩
    · rw [hdb]
      exact ih notes h
    · rw [hdb]
      exact ih _ (upsert_uniq notes _ h)

theorem pullRows_eq_of_filter_client (B : String) (ls : Option String)
    (notes notes' : List ServerNoteRow)
    (h : notes'.filter (fun r => r.client_id == B)
       = notes.filter (fun r => r.client_id == B)) :
    pullRows B ls notes' = pullRows B ls notes := by
  unfold pullRows
  rw [filter_and_eq (fun r => r.client_id == B)
      (fun r => match ls with
                | some t => strLt t r.server_modified_at
                | none => true) notes',
    filter_and_eq (fun r => r.client_id == B)
      (fun r => match ls with
                | some t => strLt t r.server_modified_at
                | none => true) notes,
    h]

/-- Claim C3 (amended): the relay keeps at most one row per id — hence at
most one per `(client_id, note_id)` pair — and a pull by client `B`
returns only rows stored under `B`'s client id; but change-set
disjointness across clients holds only when no pushed note id collides
with a row of a different client (the counterexample shows a push by `A`
rewriting a row that `B`'s pull returns).  Under that no-collision
hypothesis, a push by `A` leaves every row visible to `B`'s pull
unchanged. -/
theorem claimC3_per_client_rows (P : CryptoPrims) (A B now : String)
    (db : ServerDb) (req : List SyncNoteMsg) (ls : Option String) :
    (db.notes.Pairwise (fun a b => a.id ≠ b.id) →
      (pushNotesLoop P A now ⟨db, [], []⟩ req).db.notes.Pairwise
        (fun a b => a.id ≠ b.id)) ∧
    (∀ r ∈ pullRows B ls db.notes, r.client_id = B) ∧
    (pull P B now db ls).notes
      = (pullRows B ls db.notes).map (rowToSyncNote P db.attachments_meta) ∧
    ((∀ n ∈ req, ∀ r ∈ db.notes, r.id = n.id → r.client_id = A) → B ≠ A →
      pullRows B ls (pushNotesLoop P A now ⟨db, [], []⟩ req).db.notes
        = pullRows B ls db.notes) := by
  refine ⟨?_, ?_, rfl, ?_⟩
  · intro h
    rw [pushNotesLoop_notes]
    exact pushNotesOnly_uniq P A now req db.notes h
  · intro r hr
    have hmem := (mem_sortBySMT r _).mp hr
    have hcond := (List.mem_filter.mp hmem).2
    have := (Bool.and_eq_true _ _).mp hcond
    simpa using this.1
  · intro hfresh hBA
    rw [pushNotesLoop_notes]
    exact pullRows_eq_of_filter_client B ls db.notes _
      (pushNotesOnly_filter_other P A B now hBA req db.notes hfresh)

/-- Note pushed by client `B` in the C3 counterexample. -/
def c3noteB : SyncNoteMsg :=
  { id := "n1", created_at := "T0", modified_at := "T0", content := "from-B"
    tags := [], attachments := [], pinned := false, deleted := false
    deleted_at := none, version := 1, word_wrap := none, synLang := none }

/-- Colliding note pushed by client `A` in the C3 counterexample. -/
def c3noteA : SyncNoteMsg :=
  { id := "n1", created_at := "T2", modified_at := "T2", content := "from-A"
    tags := [], attachments := [], pinned := false, deleted := false
    deleted_at := none, version := 1, word_wrap := none, synLang := none }

/-- Table after `B`'s insert of `n1` in the C3 counterexample. -/
def c3db1 : List ServerNoteRow := (pushNote toyPrims ("B") ("T0") [] c3noteB).1

/-- Table after `A`'s colliding push in the C3 counterexample. -/
def c3db2 : List ServerNoteRow :=
  (pushNote toyPrims ("A") ("T2") c3db1 c3noteA).1

/-- Claim C3 counterexample: before `A`'s push, `B`'s pull returns `n1`
with `B`'s content; `A` then pushes the same id (accepted), and `B`'s pull
now returns `n1` carrying `A`'s content — a push by client `A` changed a
row that client `B`'s pull returns, refuting disjointness of per-client
change-sets. -/
theorem claimC3_counterexample :
    (∀ r ∈ c3db1, r.client_id = "B") ∧
    (pull toyPrims ("B") ("T9") ⟨c3db1, [], []⟩ none).notes.map
        (fun n => n.content) = ["from-B"] ∧
    (pushNote toyPrims ("A") ("T2") c3db1 c3noteA).2
      = .accepted { id := "n1", server_version := 1, synced_at := "T2" } ∧
    (pull toyPrims ("B") ("T9") ⟨c3db2, [], []⟩ none).notes.map
        (fun n => n.content) = ["from-A"] := by
  refine ⟨?_, ?_, ?_, ?_⟩ <;> decide

/-- Fresh-id note used in the C3 witness. -/
def c3noteFresh : SyncNoteMsg :=
  { id := "n2", created_at := "T3", modified_at := "T3", content := "fresh"
    tags := [], attachments := [], pinned := false, deleted := false
    deleted_at := none, version := 1, word_wrap := none, synLang := none }

/-- Claim C3 witness: with a non-colliding push by `A`, the rows `B`'s
pull sees are untouched, and they all belong to `B`. -/
theorem claimC3_per_client_rows_witness :
    pullRows ("B") none
        (pushNotesLoop toyPrims ("A") ("T5") ⟨⟨c3db1, [], []⟩, [], []⟩
          [c3noteFresh]).db.notes
      = pullRows ("B") none c3db1 ∧
    (∀ r ∈ pullRows ("B") none c3db1, r.client_id = "B") := by
  have h := claimC3_per_client_rows toyPrims ("A") ("B") ("T5")
    ⟨c3db1, [], []⟩ [c3noteFresh] none
  exact ⟨h.2.2.2 (by decide) (by decide), h.2.1⟩

/-! ## Client local store (`tui/src/repository/note.rs`, `tui/src/models/note.rs`)

Client-side timestamps (`chrono::DateTime<Utc>`) are modelled as `Nat`
instants; the RFC-3339 strings the store writes preserve their order.  The
`content`/`tags` columns hold the serde-JSON of an `EncryptedData`; that
serialisation is a bijection we elide, so the columns carry the
`EncryptedData` value itself. -/

/-- `SyntaxLanguage` from `models/note.rs` (field name `synLang` here). -/
inductive SynLang where
  | plain | javascript | python | markdown | json | html | css | sql | bash
  deriving DecidableEq, Repr

/-- `Attachment` from `models/note.rs`. -/
structure AttachmentM where
  id : String
  filename : String
  mime_type : String
  size : Int
  data : String
  thumbnail_data : Option String
  deriving DecidableEq, Repr

/-- The in-memory `Note` struct (plaintext fields). -/
structure NoteM where
  id : String
  created_at : Nat
  modified_at : Nat
  synced_at : Option Nat
  content : String
  tags : List String
  attachments : List AttachmentM
  pinned : Bool
  deleted : Bool
  deleted_at : Option Nat
  sync_hash : Option String
  version : Int
  word_wrap : Bool
  synLang : SynLang
  deriving DecidableEq, Repr

/-- `Note::new` (the UUID and the `Utc::now()` reading are parameters). -/
def NoteM.new (id : String) (now : Nat) (content : String) : NoteM :=
  { id := id, created_at := now, modified_at := now, synced_at := none
    content := content, tags := [], attachments := [], pinned := false
    deleted := false, deleted_at := none, sync_hash := none, version := 1
    word_wrap := true, synLang := .plain }

/-- `Note::touch`: stamp `modified_at` and bump `version`. -/
def NoteM.touch (n : NoteM) (now : Nat) : NoteM :=
  { n with modified_at := now, version := n.version + 1 }

/-- `Note::mark_deleted`: set the soft-delete flags, then `touch`. -/
def NoteM.mark_deleted (n : NoteM) (now : Nat) : NoteM :=
  NoteM.touch { n with deleted := true, deleted_at := some now } now

/-- A row of the client's `notes` table. -/
structure LocalNoteRow where
  id : String
  created_at : Nat
  modified_at : Nat
  synced_at : Option Nat
  content : EncryptedData
  tags : EncryptedData
  attachments : List AttachmentM
  pinned : Int
  deleted : Int
  deleted_at : Option Nat
  sync_hash : Option String
  version : Int
  word_wrap : Int
  synLang : SynLang
  deriving DecidableEq, Repr

/-- The row `NoteRepository::create` inserts (content and tags encrypted
under the master key with fresh nonces `ncC`, `ncT`). -/
def noteRow_of (P : CryptoPrims) (key ncC ncT : List Nat) (note : NoteM) :
    LocalNoteRow :=
  { id := note.id
    created_at := note.created_at
    modified_at := note.modified_at
    synced_at := note.synced_at
    content := encrypt_text P note.content key ncC
    tags := encrypt_json_strList P note.tags key ncT
    attachments := note.attachments
    pinned := boolToInt note.pinned
    deleted := boolToInt note.deleted
    deleted_at := note.deleted_at
    sync_hash := note.sync_hash
    version := note.version
    word_wrap := boolToInt note.word_wrap
    synLang := note.synLang }

/-- `NoteRepository::create`: a plain INSERT; a duplicate id violates the
primary key. -/
def repoCreate (P : CryptoPrims) (key ncC ncT : List Nat)
    (rows : List LocalNoteRow) (note : NoteM) :
    Except String (List LocalNoteRow) :=
  if rows.any (fun r => r.id == note.id) then
    .error ("UNIQUE constraint failed: notes.id")
  else
    .ok (rows ++ [noteRow_of P key ncC ncT note])

/-- `NoteRepository::update`: UPDATE ... WHERE id (id and created_at are
not in the SET list; zero matched rows is not an error). -/
def repoUpdate (P : CryptoPrims) (key ncC ncT : List Nat)
    (rows : List LocalNoteRow) (note : NoteM) : List LocalNoteRow :=
  rows.map (fun r =>
    if r.id == note.id then
      { r with
        modified_at := note.modified_at
        synced_at := note.synced_at
        content := encrypt_text P note.content key ncC
        tags := encrypt_json_strList P note.tags key ncT
        attachments := note.attachments
        pinned := boolToInt note.pinned
        deleted := boolToInt note.deleted
        deleted_at := note.deleted_at
        sync_hash := note.sync_hash
        version := note.version
        word_wrap := boolToInt note.word_wrap
        synLang := note.synLang }
    else r)

/-- `NoteRepository::delete` (SOFT delete): UPDATE notes SET deleted = 1,
deleted_at = now, modified_at = now WHERE id — `version` is not touched. -/
def repoDelete (nowDel : Nat) (rows : List LocalNoteRow) (id : String) :
    List LocalNoteRow :=
  rows.map (fun r =>
    if r.id == id then
      { r with deleted := 1, deleted_at := some nowDel, modified_at := nowDel }
    else r)

/-- `NoteRepository::hard_delete`: DELETE FROM notes WHERE id. -/
def repoHardDelete (rows : List LocalNoteRow) (id : String) :
    List LocalNoteRow :=
  rows.filter (fun r => !(r.id == id))

/-- Decrypt a row back to a `Note` (`get`/`list` body): decrypt content,
decrypt tags and parse them as a JSON string list. -/
def rowToNote (P : CryptoPrims) (key : List Nat) (r : LocalNoteRow) :
    Except String NoteM :=
  match decrypt_text P r.content key with
  | .error e => .error e
  | .ok content =>
    match decrypt_text P r.tags key with
    | .error e => .error e
    | .ok tagsJson =>
      match P.parseJsonStrList tagsJson with
      | none => .error ("JSON deserialization failed")
      | some tags =>
        .ok { id := r.id
              created_at := r.created_at
              modified_at := r.modified_at
              synced_at := r.synced_at
              content := content
              tags := tags
              attachments := r.attachments
              pinned := r.pinned != 0
              deleted := r.deleted != 0
              deleted_at := r.deleted_at
              sync_hash := r.sync_hash
              version := r.version
              word_wrap := r.word_wrap != 0
              synLang := r.synLang }

/-- Insertion into a list sorted by `modified_at` descending
(`ORDER BY modified_at DESC`). -/
def insertRowByModifiedDesc (r : LocalNoteRow) :
    List LocalNoteRow → List LocalNoteRow
  | [] => [r]
  | x :: xs =>
    if x.modified_at < r.modified_at then r :: x :: xs
    else x :: insertRowByModifiedDesc r xs

/-- Sort rows by `modified_at` descending. -/
def sortByModifiedDesc : List LocalNoteRow → List LocalNoteRow
  | [] => []
  | x :: xs => insertRowByModifiedDesc x (sortByModifiedDesc xs)

/-- Run a fallible decryption over each element, aborting on the first
error (the row loops of `list`/`get_modified_after`). -/
def mapExcept {α β : Type} (f : α → Except String β) :
    List α → Except String (List β)
  | [] => .ok []
  | a :: t =>
    match f a with
    | .error e => .error e
    | .ok b => (mapExcept f t).map (fun l => b :: l)

/-- `NoteRepository::list`: optionally filter out soft-deleted rows, order
by `modified_at` descending, decrypt each row. -/
def repoList (P : CryptoPrims) (key : List Nat) (includeDeleted : Bool)
    (rows : List LocalNoteRow) : Except String (List NoteM) :=
  mapExcept (rowToNote P key)
    (sortByModifiedDesc
      (if includeDeleted then rows else rows.filter (fun r => r.deleted == 0)))

/-- `NoteRepository::get_modified_after`: WHERE modified_at > ts, ordered
descending, decrypted. -/
def repoGetModifiedAfter (P : CryptoPrims) (key : List Nat) (ts : Nat)
    (rows : List LocalNoteRow) : Except String (List NoteM) :=
  mapExcept (rowToNote P key)
    (sortByModifiedDesc (rows.filter (fun r => decide (ts < r.modified_at))))

/-! ## Claim C9 -/

/-- A store-level mutation of one note after its creation, as the app
performs it: an update is `Note::touch` (bump version, stamp
`modified_at`) followed by `NoteRepository::update`; a delete is
`NoteRepository::delete` (the soft delete, which does not touch
`version`). -/
inductive NoteMutation where
  | update (now : Nat) (content : String) (tags : List String) (ncC ncT : List Nat)
  | delete (now : Nat)
  deriving DecidableEq, Repr

/-- Apply one mutation to the store and the in-memory note. -/
def applyMutation (P : CryptoPrims) (key : List Nat)
    (st : List LocalNoteRow × NoteM) : NoteMutation → List LocalNoteRow × NoteM
  | .update now content tags ncC ncT =>
    let n' := NoteM.touch { st.2 with content := content, tags := tags } now
    (repoUpdate P key ncC ncT st.1 n', n')
  | .delete now => (repoDelete now st.1 st.2.id, st.2)

/-- Apply a sequence of mutations. -/
def runNoteTrace (P : CryptoPrims) (key : List Nat)
    (st : List LocalNoteRow × NoteM) :
    List NoteMutation → List LocalNoteRow × NoteM
  | [] => st
  | m :: rest => runNoteTrace P key (applyMutation P key st m) rest

/-- Number of updates in a trace (the soft delete does not bump
`version`). -/
def countUpdates : List NoteMutation → Nat
  | [] => 0
  | .update _ _ _ _ _ :: rest => countUpdates rest + 1
  | .delete _ :: rest => countUpdates rest

theorem map_id_of_guard (rows : List LocalNoteRow)
    (p : LocalNoteRow → Bool) (g : LocalNoteRow → LocalNoteRow)
    (hg : ∀ r, (g r).id = r.id) :
    (rows.map (fun r => if p r then g r else r)).map (fun r => r.id)
      = rows.map (fun r => r.id) := by
  induction rows with
  | nil => rfl
  | cons r t ih =>
    simp only [List.map_cons, ih]
    by_cases hp : p r = true
    · simp [hp, hg]
    · simp [hp]

theorem runNoteTrace_invariant (P : CryptoPrims) (key : List Nat)
    (trace : List NoteMutation) :
    ∀ (rows : List LocalNoteRow) (note : NoteM),
      (∀ r ∈ rows, r.id = note.id → r.version = note.version) →
      (runNoteTrace P key (rows, note) trace).2.id = note.id ∧
      (runNoteTrace P key (rows, note) trace).2.version
        = note.version + countUpdates trace ∧
      (runNoteTrace P key (rows, note) trace).1.map (fun r => r.id)
        = rows.map (fun r => r.id) ∧
      (∀ r ∈ (runNoteTrace P key (rows, note) trace).1,
        r.id = note.id →
          r.version = (runNoteTrace P key (rows, note) trace).2.version) := by
  induction trace with
  | nil =>
    intro rows note hinv
    exact ⟨rfl, by simp [runNoteTrace, countUpdates], rfl, hinv⟩
  | cons m rest ih =>
    intro rows note hinv
    cases m with
    | update now content tags ncC ncT =>
      have hrun : runNoteTrace P key (rows, note)
          (NoteMutation.update now content tags ncC ncT :: rest)
          = runNoteTrace P key
              (repoUpdate P key ncC ncT rows
                (NoteM.touch { note with content := content, tags := tags } now),
               NoteM.touch { note with content := content, tags := tags } now)
              rest := rfl
      rw [hrun]
      have hinv' : ∀ r ∈ repoUpdate P key ncC ncT rows
          (NoteM.touch { note with content := content, tags := tags } now),
          r.id = (NoteM.touch { note with content := content, tags := tags } now).id →
          r.version
            = (NoteM.touch { note with content := content, tags := tags } now).version := by
        intro r hr hid
        obtain ⟨x, hx, hfx⟩ := List.mem_map.mp hr
        by_cases hxid : (x.id == (NoteM.touch
            { note with content := content, tags := tags } now).id) = true
        · rw [if_pos hxid] at hfx
          rw [← hfx]
        · rw [if_neg hxid] at hfx
          rw [← hfx] at hid
          exact absurd (by simpa using hid) (by simpa using hxid)
      obtain ⟨ih1, ih2, ih3, ih4⟩ := ih _ _ hinv'
      refine ⟨by simpa [NoteM.touch] using ih1, ?_, ?_, ih4⟩
      · rw [ih2]
        simp only [NoteM.touch, countUpdates]
        omega
      · rw [ih3]
        exact map_id_of_guard rows _ _ (fun r => rfl)
    | delete now =>
      have hrun : runNoteTrace P key (rows, note)
          (NoteMutation.delete now :: rest)
          = runNoteTrace P key (repoDelete now rows note.id, note) rest := rfl
      rw [hrun]
      have hinv' : ∀ r ∈ repoDelete now rows note.id,
          r.id = note.id → r.version = note.version := by
        intro r hr hid
        obtain ⟨x, hx, hfx⟩ := List.mem_map.mp hr
        by_cases hxid : (x.id == note.id) = true
        · rw [if_pos hxid] at hfx
          rw [← hfx]
          exact hinv x hx (by simpa using hxid)
        · rw [if_neg hxid] at hfx
          rw [← hfx] at hid
          exact absurd hid (by simpa using hxid)
      obtain ⟨ih1, ih2, ih3, ih4⟩ := ih _ _ hinv'
      refine ⟨ih1, by simpa [countUpdates] using ih2, ?_, ih4⟩
      rw [ih3]
      exact map_id_of_guard rows _ _ (fun r => rfl)

theorem countP_insertDesc (p : LocalNoteRow → Bool) (r : LocalNoteRow)
    (l : List LocalNoteRow) :
    (insertRowByModifiedDesc r l).countP p = (r :: l).countP p := by
  induction l with
  | nil => rfl
  | cons x xs ih =>
    by_cases hc : x.modified_at < r.modified_at
    · simp [insertRowByModifiedDesc, hc]
    · simp only [insertRowByModifiedDesc, if_neg hc, List.countP_cons, ih]
      omega

theorem countP_sortDesc (p : LocalNoteRow → Bool) (l : List LocalNoteRow) :
    (sortByModifiedDesc l).countP p = l.countP p := by
  induction l with
  | nil => rfl
  | cons x xs ih =>
    simp only [sortByModifiedDesc, countP_insertDesc, List.countP_cons, ih]

theorem mem_insertRowByModifiedDesc (r x : LocalNoteRow)
    (l : List LocalNoteRow) :
    x ∈ insertRowByModifiedDesc r l ↔ x = r ∨ x ∈ l := by
  induction l with
  | nil => simp [insertRowByModifiedDesc]
  | cons y ys ih =>
    by_cases hc : y.modified_at < r.modified_at
    · simp only [insertRowByModifiedDesc, if_pos hc, List.mem_cons]
    · simp only [insertRowByModifiedDesc, if_neg hc, List.mem_cons, ih]
      tauto

theorem mem_sortByModifiedDesc (x : LocalNoteRow) (l : List LocalNoteRow) :
    x ∈ sortByModifiedDesc l ↔ x ∈ l := by
  induction l with
  | nil => simp [sortByModifiedDesc]
  | cons y ys ih =>
    simp only [sortByModifiedDesc, mem_insertRowByModifiedDesc, List.mem_cons, ih]

theorem mapExcept_ok_count {α β : Type} (f : α → Except String β)
    (p : α → Bool) (q : β → Bool)
    (hpq : ∀ a b, f a = .ok b → q b = p a) :
    ∀ (l : List α) (bs : List β), mapExcept f l = .ok bs →
      bs.countP q = l.countP p := by
  intro l
  induction l with
  | nil =>
    intro bs h
    simp only [mapExcept, Except.ok.injEq] at h
    subst h
    rfl
  | cons a t ih =>
    intro bs h
    simp only [mapExcept] at h
    cases hf : f a with
    | error e => rw [hf] at h; exact absurd h (by simp)
    | ok b =>
      rw [hf] at h
      cases hm : mapExcept f t with
      | error e => rw [hm] at h; exact absurd h (by simp [Except.map])
      | ok l' =>
        rw [hm] at h
        simp only [Except.map, Except.ok.injEq] at h
        subst h
        simp only [List.countP_cons, ih l' hm, hpq a b hf]

theorem mapExcept_ok_mem {α β : Type} (f : α → Except String β) :
    ∀ (l : List α) (bs : List β), mapExcept f l = .ok bs →
      ∀ b ∈ bs, ∃ a ∈ l, f a = .ok b := by
  intro l
  induction l with
  | nil =>
    intro bs h
    simp only [mapExcept, Except.ok.injEq] at h
    subst h
    simp
  | cons a t ih =>
    intro bs h
    simp only [mapExcept] at h
    cases hf : f a with
    | error e => rw [hf] at h; exact absurd h (by simp)
    | ok b =>
      rw [hf] at h
      cases hm : mapExcept f t with
      | error e => rw [hm] at h; exact absurd h (by simp [Except.map])
      | ok l' =>
        rw [hm] at h
        simp only [Except.map, Except.ok.injEq] at h
        subst h
        intro b' hb'
        rcases List.mem_cons.mp hb' with hb' | hb'
        · exact ⟨a, by simp, by rw [hf, hb']⟩
        · obtain ⟨x, hx, hfx⟩ := ih l' hm b' hb'
          exact ⟨x, by simp [hx], hfx⟩

theorem rowToNote_fields (P : CryptoPrims) (key : List Nat)
    (r : LocalNoteRow) (n : NoteM) (h : rowToNote P key r = .ok n) :
    n.id = r.id ∧ n.version = r.version := by
  simp only [rowToNote] at h
  split at h
  · exact absurd h (by simp)
  · split at h
    · exact absurd h (by simp)
    · split at h
      · exact absurd h (by simp)
      · simp only [Except.ok.injEq] at h
        rw [← h]
        exact ⟨rfl, rfl⟩

/-- Claim C9 (amended): for every sequence of Create/Update/Delete
operations applied through the local store for a given note id, the
store's `list(include_deleted = true)` contains exactly one row for that
id — but the row's `version` equals 1 plus the number of UPDATES, not the
number of all mutations: the repository's soft delete
(`NoteRepository::delete`, a plain SQL UPDATE of the deleted flags and
`modified_at`) does not bump `version`, unlike the model-level
`Note::touch` path used for updates. -/
theorem claimC9_version_counting (P : CryptoPrims) (key ncC ncT : List Nat)
    (rows0 : List LocalNoteRow) (id : String) (now0 : Nat) (content0 : String)
    (trace : List NoteMutation)
    (hfresh : ∀ r ∈ rows0, r.id ≠ id) :
    repoCreate P key ncC ncT rows0 (NoteM.new id now0 content0)
      = .ok (rows0 ++ [noteRow_of P key ncC ncT (NoteM.new id now0 content0)]) ∧
    (runNoteTrace P key
        (rows0 ++ [noteRow_of P key ncC ncT (NoteM.new id now0 content0)],
         NoteM.new id now0 content0) trace).1.countP
        (fun r => r.id == id) = 1 ∧
    (∀ r ∈ (runNoteTrace P key
        (rows0 ++ [noteRow_of P key ncC ncT (NoteM.new id now0 content0)],
         NoteM.new id now0 content0) trace).1,
      r.id = id → r.version = 1 + (countUpdates trace : Int)) ∧
    (∀ notes, repoList P key true (runNoteTrace P key
        (rows0 ++ [noteRow_of P key ncC ncT (NoteM.new id now0 content0)],
         NoteM.new id now0 content0) trace).1 = .ok notes →
      notes.countP (fun nn => nn.id == id) = 1 ∧
      ∀ nn ∈ notes, nn.id = id → nn.version = 1 + (countUpdates trace : Int)) := by
  have hany : rows0.any (fun r => r.id == (NoteM.new id now0 content0).id)
      = false := by
    rw [List.any_eq_false]
    intro r hr
    simpa [NoteM.new] using hfresh r hr
  have hcreate : repoCreate P key ncC ncT rows0 (NoteM.new id now0 content0)
      = .ok (rows0 ++ [noteRow_of P key ncC ncT (NoteM.new id now0 content0)]) := by
    simp [repoCreate, hany]
  have hinv0 : ∀ r ∈ rows0 ++ [noteRow_of P key ncC ncT (NoteM.new id now0 content0)],
      r.id = (NoteM.new id now0 content0).id →
        r.version = (NoteM.new id now0 content0).version := by
    intro r hr hid
    rcases List.mem_append.mp hr with h | h
    · exact absurd (by simpa [NoteM.new] using hid) (hfresh r h)
    · rw [List.mem_singleton.mp h]
      rfl
  obtain ⟨h1, h2, h3, h4⟩ := runNoteTrace_invariant P key trace _ _ hinv0
  have hids : (runNoteTrace P key
      (rows0 ++ [noteRow_of P key ncC ncT (NoteM.new id now0 content0)],
       NoteM.new id now0 content0) trace).1.countP (fun r => r.id == id) = 1 := by
    have hmapped : ∀ (l : List LocalNoteRow),
        l.countP (fun r => r.id == id)
          = (l.map (fun r => r.id)).countP (fun s => s == id) := by
      intro l
      induction l with
      | nil => rfl
      | cons r t ih => simp [List.countP_cons, ih]
    rw [hmapped, h3, ← hmapped]
    rw [List.countP_append]
    have hz : rows0.countP (fun r => r.id == id) = 0 := by
      rw [List.countP_eq_zero]
      intro r hr
      simpa using hfresh r hr
    rw [hz]
    simp [noteRow_of, NoteM.new]
  have hver : ∀ r ∈ (runNoteTrace P key
      (rows0 ++ [noteRow_of P key ncC ncT (NoteM.new id now0 content0)],
       NoteM.new id now0 content0) trace).1,
      r.id = id → r.version = 1 + (countUpdates trace : Int) := by
    intro r hr hid
    have := h4 r hr (by simpa [NoteM.new] using hid)
    rw [this, h2]
    rfl
  refine ⟨hcreate, hids, hver, ?_⟩
  intro notes hok
  simp only [repoList, if_pos] at hok
  constructor
  · have hc := mapExcept_ok_count (rowToNote P key)
      (fun r => r.id == id) (fun nn => nn.id == id)
      (fun a b hab => by
        show (b.id == id) = (a.id == id)
        rw [(rowToNote_fields P key a b hab).1]) _ notes hok
    rw [hc, countP_sortDesc]
    exact hids
  · intro nn hnn hnnid
    obtain ⟨a, ha, hfa⟩ := mapExcept_ok_mem (rowToNote P key) _ notes hok nn hnn
    obtain ⟨hfid, hfver⟩ := rowToNote_fields P key a nn hfa
    rw [hfver]
    exact hver a ((mem_sortByModifiedDesc a _).mp ha) (by rw [← hfid, hnnid])

/-- Key used in the C9 concrete runs. -/
def c9key : List Nat := List.replicate 32 7

/-- The created note of the C9 counterexample. -/
def c9note0 : NoteM := NoteM.new ("m1") 10 ("hello")

/-- Its stored row. -/
def c9row0 : LocalNoteRow := noteRow_of toyPrims c9key [3] [4] c9note0

/-- Claim C9 counterexample: create then soft-delete is two mutations, but
the stored row's `version` is still 1 (the soft delete marked the row
deleted without bumping `version`), refuting "version equals the number of
mutations applied to the note (bumped on every mutation, including soft
delete)". -/
theorem claimC9_counterexample :
    repoCreate toyPrims c9key [3] [4] [] c9note0 = .ok [c9row0] ∧
    (runNoteTrace toyPrims c9key ([c9row0], c9note0)
        [NoteMutation.delete 20]).1.map (fun r => (r.id, r.deleted, r.version))
      = [("m1", 1, 1)] := by
  exact ⟨rfl, by decide⟩

/-- Claim C9 witness: one create and one update then a delete leave a
single row with version 2 (= 1 + one update). -/
theorem claimC9_version_counting_witness :
    (runNoteTrace toyPrims c9key
        ([] ++ [noteRow_of toyPrims c9key [3] [4] (NoteM.new ("m1") 10 ("hello"))],
         NoteM.new ("m1") 10 ("hello"))
        [NoteMutation.update 20 ("x") [] [5] [6], NoteMutation.delete 30]).1.countP
        (fun r => r.id == "m1") = 1 ∧
    (∀ r ∈ (runNoteTrace toyPrims c9key
        ([] ++ [noteRow_of toyPrims c9key [3] [4] (NoteM.new ("m1") 10 ("hello"))],
         NoteM.new ("m1") 10 ("hello"))
        [NoteMutation.update 20 ("x") [] [5] [6], NoteMutation.delete 30]).1,
      r.id = "m1" →
        r.version = 1 + ((countUpdates
          [NoteMutation.update 20 ("x") [] [5] [6], NoteMutation.delete 30]) : Int)) := by
  have h := claimC9_version_counting toyPrims c9key [3] [4] [] ("m1") 10 ("hello")
    [NoteMutation.update 20 ("x") [] [5] [6], NoteMutation.delete 30] (by simp)
  exact ⟨h.2.1, h.2.2.1⟩

/-! ## Client sync cycle (`tui/src/ui/app.rs`, `perform_sync`)

The network is abstracted: each HTTP exchange is an input that either
succeeds with the parsed response or fails (transport error, non-2xx
status, or unparsable body); HTTP statuses are carried as display strings.
Fresh AES-GCM nonces are drawn from an input stream `nstream`; which
stream position a given encryption uses is immaterial, so the apply phase
restarts at index 0. -/

/-- `Display` of `SyntaxLanguage`. -/
def synLangToString : SynLang → String
  | .plain => "plain"
  | .javascript => "javascript"
  | .python => "python"
  | .markdown => "markdown"
  | .json => "json"
  | .html => "html"
  | .css => "css"
  | .sql => "sql"
  | .bash => "bash"

/-- `FromStr` of `SyntaxLanguage` (the source lowercases first; every
string the system itself produces is already lowercase). -/
def synLangFromString : String → Option SynLang
  | "plain" => some .plain
  | "javascript" => some .javascript
  | "js" => some .javascript
  | "python" => some .python
  | "py" => some .python
  | "markdown" => some .markdown
  | "md" => some .markdown
  | "json" => some .json
  | "html" => some .html
  | "css" => some .css
  | "sql" => some .sql
  | "bash" => some .bash
  | "sh" => some .bash
  | _ => none

/-- `SyncMetadata` from `tui/src/models/sync.rs`. -/
structure SyncMetadataM where
  last_sync_at : Option Nat
  last_push_at : Option Nat
  last_pull_at : Option Nat
  api_key : Option String
  client_id : Option String
  sync_enabled : Bool
  sync_endpoint : String
  auto_sync_interval : Option Int
  deriving DecidableEq, Repr

/-- `SyncMetadata::default`. -/
def SyncMetadataM.default : SyncMetadataM :=
  { last_sync_at := none, last_push_at := none, last_pull_at := none
    api_key := none, client_id := none, sync_enabled := false
    sync_endpoint := "", auto_sync_interval := some 5 }

/-- `AttachmentRef` (client wire form). -/
structure AttachmentRefC where
  id : String
  filename : String
  mime_type : String
  size : Int
  data : String
  deriving DecidableEq, Repr

/-- `SyncNote` (client wire form; timestamps are instants). -/
structure SyncNoteC where
  id : String
  created_at : Nat
  modified_at : Nat
  content : String
  tags : List String
  attachments : List AttachmentRefC
  pinned : Bool
  deleted : Bool
  deleted_at : Option Nat
  version : Int
  word_wrap : Option Bool
  synLang : Option String
  deriving DecidableEq, Repr

/-- `SyncAccepted` (client side). -/
structure SyncAcceptedC where
  id : String
  server_version : Int
  synced_at : Nat
  deriving DecidableEq, Repr

/-- `SyncRejected` (client side). -/
structure SyncRejectedC where
  id : String
  reason : String
  server_modified_at : Nat
  deriving DecidableEq, Repr

/-- `SyncPushResponse` (client side). -/
structure SyncPushResponseC where
  accepted : List SyncAcceptedC
  rejected : List SyncRejectedC
  errors : List String
  deriving DecidableEq, Repr

/-- `SyncDeletion` (client side). -/
structure SyncDeletionC where
  id : String
  deleted_at : Nat
  deriving DecidableEq, Repr

/-- `SyncAttachment` (client side). -/
structure SyncAttachmentC where
  id : String
  data : String
  deriving DecidableEq, Repr

/-- `SyncPullResponse` (client side). -/
structure SyncPullResponseC where
  notes : List SyncNoteC
  deletions : List SyncDeletionC
  attachments : List SyncAttachmentC
  synced_at : Nat
  deriving DecidableEq, Repr

/-- Outcome of one HTTP exchange as `perform_sync` observes it. -/
inductive NetResult (α : Type) where
  | success (a : α)
  | non2xx (status : String) (body : String)
  | sendError (msg : String)
  | parseError
  deriving DecidableEq, Repr

/-- The client's persisted and in-memory state touched by `perform_sync`:
the `notes` table, the `sync_metadata` row, and `self.notes`. -/
structure ClientState where
  rows : List LocalNoteRow
  meta : Option SyncMetadataM
  memNotes : List NoteM
  deriving DecidableEq, Repr

/-- The environment of a sync cycle: HTTP outcomes, the `Utc::now()`
readings taken at the four mutation points, and the nonce stream. -/
structure SyncInputs where
  pushHttp : NetResult SyncPushResponseC
  pullHttp : NetResult SyncPullResponseC
  nowPush : Nat
  nowDel : Nat
  nowSync : Nat
  nowPull : Nat
  nstream : Nat → List Nat

/-- Lines 828-832 of `perform_sync`: read the encrypted API key from the
metadata, parse the envelope JSON, decrypt under the master key. -/
def getApiKey (P : CryptoPrims) (key : List Nat) (meta : SyncMetadataM) :
    Except String String :=
  match meta.api_key with
  | none => .error ("No API key configured")
  | some s =>
    match P.parseEncData s with
    | none => .error ("JSON parse error")
    | some enc => decrypt_text P enc key

/-- The push set: notes modified after the last sync, or all non-deleted
notes when no sync has happened. -/
def computePushSet (P : CryptoPrims) (key : List Nat) (meta : SyncMetadataM)
    (rows : List LocalNoteRow) : Except String (List NoteM) :=
  match meta.last_sync_at with
  | some t => repoGetModifiedAfter P key t rows
  | none => repoList P key false rows

/-- Transport-encrypt one note for push: envelope the content and each tag
under the master key with fresh nonces; attachments are sent empty (the
code's TODO). -/
def buildSyncNote (P : CryptoPrims) (key : List Nat) (nstream : Nat → List Nat)
    (i : Nat) (n : NoteM) : SyncNoteC × Nat :=
  let contentJson := P.encDataToJson (encrypt_text P n.content key (nstream i))
  let tagsFold := n.tags.foldl
    (fun (acc : List String × Nat) t =>
      (acc.1 ++ [P.encDataToJson (encrypt_text P t key (nstream acc.2))],
       acc.2 + 1))
    ([], i + 1)
  ({ id := n.id, created_at := n.created_at, modified_at := n.modified_at
     content := contentJson, tags := tagsFold.1, attachments := []
     pinned := n.pinned, deleted := n.deleted, deleted_at := n.deleted_at
     version := n.version, word_wrap := some n.word_wrap
     synLang := some (synLangToString n.synLang) }, tagsFold.2)

/-- The push payload. -/
def buildPushNotes (P : CryptoPrims) (key : List Nat)
    (nstream : Nat → List Nat) : Nat → List NoteM → List SyncNoteC
  | _, [] => []
  | i, n :: rest =>
    let s := buildSyncNote P key nstream i n
    s.1 :: buildPushNotes P key nstream s.2 rest

/-- Parse and decrypt the transported tag envelopes of a pulled note. -/
def decryptTags (P : CryptoPrims) (key : List Nat) :
    List String → Except String (List String)
  | [] => .ok []
  | tj :: rest =>
    match P.parseEncData tj with
    | none => .error ("JSON parse error")
    | some enc =>
      match decrypt_text P enc key with
      | .error e => .error e
      | .ok t => (decryptTags P key rest).map (fun l => t :: l)

/-- Replace the first in-memory note with the given id
(`iter_mut().find`). -/
def replaceFirstNote (n' : NoteM) (id : String) :
    List NoteM → List NoteM
  | [] => []
  | n :: t => if n.id == id then n' :: t else n :: replaceFirstNote n' id t

/-- State threaded through the apply-remote loop: next nonce index, the
store rows, the in-memory list, the running sync count. -/
structure ApplyState where
  idx : Nat
  rows : List LocalNoteRow
  mem : List NoteM
  cnt : Nat
  deriving DecidableEq, Repr

/-- Apply one pulled note: parse + decrypt content and tags (any failure
aborts the cycle, keeping the store writes already made); then
last-write-wins against the in-memory copy — strictly newer remote
overwrites the replicated fields and is written back with
`NoteRepository::update`; an unknown id becomes a fresh note written with
`NoteRepository::create`. -/
def applyRemoteNotes (P : CryptoPrims) (key : List Nat)
    (nstream : Nat → List Nat) :
    List SyncNoteC → ApplyState → ApplyState × Option String
  | [], st => (st, none)
  | rn :: rest, st =>
    match P.parseEncData rn.content with
    | none => (st, some ("JSON parse error"))
    | some enc =>
      match decrypt_text P enc key with
      | .error e => (st, some e)
      | .ok content =>
        match decryptTags P key rn.tags with
        | .error e => (st, some e)
        | .ok tags =>
          match st.mem.find? (fun n => n.id == rn.id) with
          | some localNote =>
            if localNote.modified_at < rn.modified_at then
              let n' : NoteM :=
                { localNote with
                  content := content
                  tags := tags
                  modified_at := rn.modified_at
                  pinned := rn.pinned
                  deleted := rn.deleted
                  deleted_at := rn.deleted_at
                  version := rn.version
                  word_wrap := rn.word_wrap.getD true
                  synLang :=
                    match rn.synLang with
                    | some s => (synLangFromString s).getD .plain
                    | none => localNote.synLang }
              applyRemoteNotes P key nstream rest
                { idx := st.idx + 2
                  rows := repoUpdate P key (nstream st.idx)
                    (nstream (st.idx + 1)) st.rows n'
                  mem := replaceFirstNote n' rn.id st.mem
                  cnt := st.cnt + 1 }
            else
              applyRemoteNotes P key nstream rest st
          | none =>
            let newNote : NoteM :=
              { NoteM.new rn.id 0 content with
                created_at := rn.created_at
                modified_at := rn.modified_at
                tags := tags
                pinned := rn.pinned
                deleted := rn.deleted
                deleted_at := rn.deleted_at
                version := rn.version
                word_wrap := rn.word_wrap.getD true
                synLang :=
                  match rn.synLang with
                  | some s => (synLangFromString s).getD .plain
                  | none => SynLang.plain }
            match repoCreate P key (nstream st.idx) (nstream (st.idx + 1))
                st.rows newNote with
            | .error e => (st, some e)
            | .ok rows' =>
              applyRemoteNotes P key nstream rest
                { idx := st.idx + 2, rows := rows'
                  mem := newNote :: st.mem, cnt := st.cnt + 1 }

/-- Apply the pull response's deletions: for each id present in the
in-memory list, call `NoteRepository::delete` (the soft delete) and remove
the note from the list. -/
def applyDeletions (nowDel : Nat) :
    List SyncDeletionC → List LocalNoteRow × List NoteM × Nat →
      List LocalNoteRow × List NoteM × Nat
  | [], st => st
  | d :: rest, (rows, mem, cnt) =>
    if mem.any (fun n => n.id == d.id) then
      applyDeletions nowDel rest
        (repoDelete nowDel rows d.id,
         mem.eraseP (fun n => n.id == d.id), cnt + 1)
    else
      applyDeletions nowDel rest (rows, mem, cnt)

/-- The pull-and-apply half of `perform_sync`, entered after a successful
(or skipped) push with the accepted count `cnt0` and the in-memory
metadata `metadata1`: pull, apply remote notes, apply deletions, stamp and
store the sync metadata, reload the note list. -/
def performSyncTail (P : CryptoPrims) (key : List Nat) (st : ClientState)
    (inp : SyncInputs) (metadata1 : SyncMetadataM) (cnt0 : Nat) :
    Except String Nat × ClientState :=
  match inp.pullHttp with
  | .sendError msg => (.error ("Failed to send pull request: " ++ msg), st)
  | .non2xx status body =>
    (.error ("Pull failed: " ++ status ++ " - " ++ body), st)
  | .parseError => (.error ("Failed to parse pull response"), st)
  | .success resp =>
    match applyRemoteNotes P key inp.nstream resp.notes
        ⟨0, st.rows, st.memNotes, cnt0⟩ with
    | (stApplied, some e) =>
      (.error e,
       { st with rows := stApplied.rows, memNotes := stApplied.mem })
    | (stApplied, none) =>
      match applyDeletions inp.nowDel resp.deletions
          (stApplied.rows, stApplied.mem, stApplied.cnt) with
      | (rows2, mem2, cnt2) =>
        let metadata2 :=
          { metadata1 with
            last_sync_at := some inp.nowSync
            last_pull_at := some inp.nowPull }
        match repoList P key false rows2 with
        | .error e =>
          (.error e,
           { rows := rows2, meta := some metadata2, memNotes := mem2 })
        | .ok memReloaded =>
          (.ok cnt2,
           { rows := rows2, meta := some metadata2, memNotes := memReloaded })

/-- The push half of `perform_sync`: skip when the push set is empty, else
observe the push exchange; on success count the accepted notes and stamp
`last_push_at` with the client clock. -/
def performSyncPush (metadata : SyncMetadataM) (inp : SyncInputs)
    (notesToPush : List NoteM) : Except String (Nat × SyncMetadataM) :=
  if notesToPush.isEmpty then .ok (0, metadata)
  else
    match inp.pushHttp with
    | .sendError msg => .error ("Failed to send push request: " ++ msg)
    | .non2xx status body =>
      .error ("Push failed: " ++ status ++ " - " ++ body)
    | .parseError => .error ("Failed to parse push response")
    | .success resp =>
      .ok (resp.accepted.length,
           { metadata with last_push_at := some inp.nowPush })

/-- `perform_sync`: the full cycle.  Returns the cycle's outcome together
with the client state after it; every early `bail!`/`?` abort returns at
the point the code aborts, so the state it carries is exactly what the
code has written by then. -/
def performSync (P : CryptoPrims) (key : List Nat) (st : ClientState)
    (inp : SyncInputs) : Except String Nat × ClientState :=
  let metadata := st.meta.getD SyncMetadataM.default
  match getApiKey P key metadata with
  | .error e => (.error e, st)
  | .ok _apiKey =>
    match computePushSet P key metadata st.rows with
    | .error e => (.error e, st)
    | .ok notesToPush =>
      match performSyncPush metadata inp notesToPush with
      | .error e => (.error e, st)
      | .ok (cnt0, metadata1) => performSyncTail P key st inp metadata1 cnt0

/-! ## Claims C2 and C10 -/

theorem performSyncTail_ok_meta (P : CryptoPrims) (key : List Nat)
    (st : ClientState) (inp : SyncInputs) (metadata1 : SyncMetadataM)
    (cnt0 : Nat) (n : Nat) (st' : ClientState)
    (h : performSyncTail P key st inp metadata1 cnt0 = (.ok n, st')) :
    st'.meta = some { metadata1 with
      last_sync_at := some inp.nowSync
      last_pull_at := some inp.nowPull } := by
  unfold performSyncTail at h
  cases hpull : inp.pullHttp with
  | success resp =>
    simp only [hpull] at h
    rcases happ : applyRemoteNotes P key inp.nstream resp.notes
        ⟨0, st.rows, st.memNotes, cnt0⟩ with ⟨stApplied, oerr⟩
    cases oerr with
    | some e => simp only [happ] at h; simp at h
    | none =>
      simp only [happ] at h
      rcases hdel : applyDeletions inp.nowDel resp.deletions
          (stApplied.rows, stApplied.mem, stApplied.cnt) with ⟨rows2, mem2, cnt2⟩
      simp only [hdel] at h
      cases hlist : repoList P key false rows2 with
      | error e => simp only [hlist] at h; simp at h
      | ok memReloaded =>
        simp only [hlist] at h
        have h2 := congrArg Prod.snd h
        simp only at h2
        rw [← h2]
  | non2xx status body => simp only [hpull] at h; simp at h
  | sendError msg => simp only [hpull] at h; simp at h
  | parseError => simp only [hpull] at h; simp at h

/-- Claim C2 (amended): at the end of every successful sync cycle the
client sets `last_sync_at` and `last_pull_at` to its own `Utc::now()`
readings taken after applying the pull (and `last_push_at` to its own
reading taken after the push response, when a push was sent) — not to the
relay-returned `synced_at`, which `perform_sync` never stores. -/
theorem claimC2_bookkeeping (P : CryptoPrims) (key : List Nat)
    (st : ClientState) (inp : SyncInputs) (n : Nat) (st' : ClientState)
    (h : performSync P key st inp = (.ok n, st')) :
    ∃ m, st'.meta = some m ∧
      m.last_sync_at = some inp.nowSync ∧
      m.last_pull_at = some inp.nowPull ∧
      (∀ ns, computePushSet P key (st.meta.getD SyncMetadataM.default) st.rows
          = .ok ns → ns ≠ [] → m.last_push_at = some inp.nowPush) ∧
      (∀ ns, computePushSet P key (st.meta.getD SyncMetadataM.default) st.rows
          = .ok ns → ns = [] →
        m.last_push_at = (st.meta.getD SyncMetadataM.default).last_push_at) := by
  simp only [performSync] at h
  cases hapi : getApiKey P key (st.meta.getD SyncMetadataM.default) with
  | error e => simp only [hapi] at h; simp at h
  | ok apikey =>
    simp only [hapi] at h
    cases hset : computePushSet P key (st.meta.getD SyncMetadataM.default)
        st.rows with
    | error e => simp only [hset] at h; simp at h
    | ok ns =>
      simp only [hset] at h
      cases hps : performSyncPush (st.meta.getD SyncMetadataM.default) inp ns with
      | error e => simp only [hps] at h; simp at h
      | ok pair =>
        rcases pair with ⟨cnt0, metadata1⟩
        simp only [hps] at h
        have hm := performSyncTail_ok_meta P key st inp metadata1 cnt0 n st' h
        unfold performSyncPush at hps
        by_cases hemp : ns.isEmpty = true
        · rw [if_pos hemp] at hps
          simp only [Except.ok.injEq, Prod.mk.injEq] at hps
          refine ⟨_, hm, rfl, rfl, ?_, ?_⟩
          · intro ns' hns' hne
            exfalso
            apply hne
            have h1 : ns = ns' := (Except.ok.injEq _ _).mp hns'
            rw [← h1]
            cases ns with
            | nil => rfl
            | cons a t => simp [List.isEmpty] at hemp
          · intro ns' hns' hnil
            show metadata1.last_push_at
              = (st.meta.getD SyncMetadataM.default).last_push_at
            rw [hps.2]
        · rw [if_neg hemp] at hps
          cases hpush : inp.pushHttp with
          | success resp =>
            simp only [hpush, Except.ok.injEq, Prod.mk.injEq] at hps
            refine ⟨_, hm, rfl, rfl, ?_, ?_⟩
            · intro ns' hns' hne
              show metadata1.last_push_at = some inp.nowPush
              rw [← hps.2]
            · intro ns' hns' hnil
              exfalso
              apply hemp
              have h1 : ns = ns' := (Except.ok.injEq _ _).mp hns'
              rw [h1, hnil]
              rfl
          | non2xx status body => simp only [hpush] at hps; simp at hps
          | sendError msg => simp only [hpush] at hps; simp at hps
          | parseError => simp only [hpush] at hps; simp at hps

/-- Key of the concrete sync-cycle runs. -/
def c2key : List Nat := List.replicate 32 0

/-- A stored API-key envelope decryptable under `c2key`. -/
def c2apiBlob : String :=
  toyPrims.encDataToJson (encrypt_text toyPrims ("k") c2key [0])

/-- Metadata with the API key configured and no prior sync. -/
def c2meta : SyncMetadataM :=
  { SyncMetadataM.default with api_key := some c2apiBlob }

/-- Client state of the concrete runs: empty store, metadata present. -/
def c2st : ClientState := { rows := [], meta := some c2meta, memNotes := [] }

/-- Pull response whose relay clock reads 999. -/
def c2pull : SyncPullResponseC :=
  { notes := [], deletions := [], attachments := [], synced_at := 999 }

/-- Sync environment: successful empty pull, client clock readings 4-7. -/
def c2inp : SyncInputs :=
  { pushHttp := .parseError, pullHttp := .success c2pull
    nowPush := 4, nowDel := 7, nowSync := 5, nowPull := 6
    nstream := fun _ => [0] }

set_option maxRecDepth 16000 in
/-- Claim C2 counterexample: a successful cycle whose relay returned
`synced_at = 999` stores `last_sync_at = 5` and `last_pull_at = 6` — the
client's own clock readings — and not the relay's 999, refuting "sets
last_push_at, last_pull_at, and last_sync_at to the synced_at value
returned by the relay". -/
theorem claimC2_counterexample :
    (performSync toyPrims c2key c2st c2inp).1 = .ok 0 ∧
    c2pull.synced_at = 999 ∧
    ((performSync toyPrims c2key c2st c2inp).2.meta.map
      (fun m => (m.last_sync_at, m.last_pull_at, m.last_push_at)))
      = some (some 5, some 6, none) ∧
    ((performSync toyPrims c2key c2st c2inp).2.meta.map
      (fun m => m.last_sync_at)) ≠ some (some c2pull.synced_at) := by
  refine ⟨rfl, rfl, by decide, by decide⟩

set_option maxRecDepth 16000 in
/-- Claim C2 witness: the amended bookkeeping statement applied to the
concrete successful run. -/
theorem claimC2_bookkeeping_witness :
    ∃ m, (performSync toyPrims c2key c2st c2inp).2.meta = some m ∧
      m.last_sync_at = some c2inp.nowSync ∧
      m.last_pull_at = some c2inp.nowPull ∧
      (∀ ns, computePushSet toyPrims c2key
          (c2st.meta.getD SyncMetadataM.default) c2st.rows
          = .ok ns → ns ≠ [] → m.last_push_at = some c2inp.nowPush) ∧
      (∀ ns, computePushSet toyPrims c2key
          (c2st.meta.getD SyncMetadataM.default) c2st.rows
          = .ok ns → ns = [] →
        m.last_push_at
          = (c2st.meta.getD SyncMetadataM.default).last_push_at) := by
  have h : performSync toyPrims c2key c2st c2inp
      = (.ok 0, (performSync toyPrims c2key c2st c2inp).2) := by
    have h1 : (performSync toyPrims c2key c2st c2inp).1 = .ok 0 := rfl
    cases hp : performSync toyPrims c2key c2st c2inp with
    | mk a b =>
      rw [hp] at h1
      simp only at h1
      simp [h1]
  exact claimC2_bookkeeping toyPrims c2key c2st c2inp 0 _ h

/-- Claim C10: once the cycle has read its API key and computed the push
set, a non-2xx push response (when a push is sent) or a non-2xx pull
response aborts the cycle with an error, returning the client state
exactly as it was — in particular the stored `sync_metadata` row
(`last_sync_at` included) is untouched, so retrying is safe. -/
theorem claimC10_non2xx_aborts (P : CryptoPrims) (key : List Nat)
    (st : ClientState) (inp : SyncInputs) (ns : List NoteM) (apikey : String)
    (status body : String)
    (h1 : getApiKey P key (st.meta.getD SyncMetadataM.default) = .ok apikey)
    (h2 : computePushSet P key (st.meta.getD SyncMetadataM.default) st.rows
        = .ok ns) :
    (ns ≠ [] → inp.pushHttp = .non2xx status body →
      performSync P key st inp
        = (.error ("Push failed: " ++ status ++ " - " ++ body), st)) ∧
    ((ns = [] ∨ (∃ resp, inp.pushHttp = .success resp)) →
      inp.pullHttp = .non2xx status body →
      performSync P key st inp
        = (.error ("Pull failed: " ++ status ++ " - " ++ body), st)) := by
  constructor
  · intro hne hpush
    simp only [performSync, h1, h2, performSyncPush]
    have hemp : ¬(ns.isEmpty = true) := by
      intro hc
      apply hne
      cases ns with
      | nil => rfl
      | cons a t => simp at hc
    rw [if_neg hemp, hpush]
  · intro hpre hpull
    simp only [performSync, h1, h2, performSyncPush]
    rcases hpre with hnil | ⟨resp, hpush⟩
    · subst hnil
      rw [if_pos (by rfl)]
      simp only [performSyncTail, hpull]
    · by_cases hemp : ns.isEmpty = true
      · rw [if_pos hemp]
        simp only [performSyncTail, hpull]
      · rw [if_neg hemp, hpush]
        simp only [performSyncTail, hpull]

/-- Environment of the C10 witness: pull answers 500. -/
def c10inp : SyncInputs :=
  { pushHttp := .parseError, pullHttp := .non2xx ("500") ("boom")
    nowPush := 4, nowDel := 7, nowSync := 5, nowPull := 6
    nstream := fun _ => [0] }

set_option maxRecDepth 16000 in
/-- Claim C10 witness: a concrete cycle whose pull returns a non-2xx
status errors out and leaves the state untouched. -/
theorem claimC10_non2xx_aborts_witness :
    performSync toyPrims c2key c2st c10inp
      = (.error ("Pull failed: " ++ "500" ++ " - " ++ "boom"), c2st) := by
  have h := claimC10_non2xx_aborts toyPrims c2key c2st c10inp [] ("k")
    ("500") ("boom") (by rfl) (by rfl)
  exact h.2 (Or.inl rfl) rfl

/-- The soft delete keeps every row's id in place. -/
lemma repoDelete_map_id (nowDel : Nat) (rows : List LocalNoteRow)
    (i : String) :
    (repoDelete nowDel rows i).map (fun r => r.id)
      = rows.map (fun r => r.id) := by
  unfold repoDelete
  rw [List.map_map]
  apply List.map_congr_left
  intro r _
  by_cases h : (r.id == i)
  · show (if r.id == i then _ else r).id = r.id
    rw [if_pos h]
  · show (if r.id == i then _ else r).id = r.id
    rw [if_neg h]

/-- After the soft delete, every row carrying the deleted id is marked. -/
lemma repoDelete_marks (nowDel : Nat) (rows : List LocalNoteRow)
    (i : String) :
    ∀ r ∈ repoDelete nowDel rows i,
      r.id = i → r.deleted = 1 ∧ r.deleted_at = some nowDel := by
  intro r hr hid
  unfold repoDelete at hr
  rcases List.mem_map.mp hr with ⟨r0, hr0, heq⟩
  by_cases h : (r0.id == i)
  · rw [if_pos h] at heq
    subst heq
    exact ⟨rfl, rfl⟩
  · rw [if_neg h] at heq
    subst heq
    exact absurd (beq_iff_eq.mpr hid) h

/-- The soft delete preserves already-marked rows (the stamp is the one
`nowDel` of the cycle). -/
lemma repoDelete_persist (nowDel : Nat) (rows : List LocalNoteRow)
    (i j : String)
    (hall : ∀ r ∈ rows, r.id = j → r.deleted = 1 ∧ r.deleted_at = some nowDel) :
    ∀ r ∈ repoDelete nowDel rows i,
      r.id = j → r.deleted = 1 ∧ r.deleted_at = some nowDel := by
  intro r hr hid
  unfold repoDelete at hr
  rcases List.mem_map.mp hr with ⟨r0, hr0, heq⟩
  by_cases h : (r0.id == i)
  · rw [if_pos h] at heq
    subst heq
    exact ⟨rfl, rfl⟩
  · rw [if_neg h] at heq
    subst heq
    exact hall r0 hr0 hid

/-- The deletion loop never removes a row: the id column is unchanged. -/
lemma applyDeletions_rows_map_id (nowDel : Nat) :
    ∀ (dels : List SyncDeletionC) (rows : List LocalNoteRow)
      (mem : List NoteM) (cnt : Nat),
    (applyDeletions nowDel dels (rows, mem, cnt)).1.map (fun r => r.id)
      = rows.map (fun r => r.id) := by
  intro dels
  induction dels with
  | nil => intro rows mem cnt; rfl
  | cons d0 rest ih =>
    intro rows mem cnt
    simp only [applyDeletions]
    by_cases h0 : mem.any (fun n => n.id == d0.id)
    · rw [if_pos h0, ih, repoDelete_map_id]
    · rw [if_neg h0]
      exact ih rows mem cnt

/-- Rows already marked with the cycle's delete stamp stay marked through
the rest of the deletion loop. -/
lemma applyDeletions_persist (nowDel : Nat) (j : String) :
    ∀ (dels : List SyncDeletionC) (rows : List LocalNoteRow)
      (mem : List NoteM) (cnt : Nat),
    (∀ r ∈ rows, r.id = j → r.deleted = 1 ∧ r.deleted_at = some nowDel) →
    ∀ r ∈ (applyDeletions nowDel dels (rows, mem, cnt)).1,
      r.id = j → r.deleted = 1 ∧ r.deleted_at = some nowDel := by
  intro dels
  induction dels with
  | nil =>
    intro rows mem cnt hall r hr hid
    exact hall r hr hid
  | cons d0 rest ih =>
    intro rows mem cnt hall
    simp only [applyDeletions]
    by_cases h0 : mem.any (fun n => n.id == d0.id)
    · rw [if_pos h0]
      exact ih _ _ _ (repoDelete_persist nowDel rows d0.id j hall)
    · rw [if_neg h0]
      exact ih _ _ _ hall

/-- Erasing one note with a different id keeps a matching note present. -/
lemma any_eraseP_of_ne (i j : String) (hne : ¬ i = j) :
    ∀ mem : List NoteM, mem.any (fun n => n.id == i) = true →
      (mem.eraseP (fun n => n.id == j)).any (fun n => n.id == i) = true := by
  intro mem
  induction mem with
  | nil => intro h; exact absurd h (by simp)
  | cons n t iht =>
    intro h
    by_cases hj : ((fun n : NoteM => n.id == j) n)
    · have hj' : (n.id == j) = true := hj
      simp only [List.eraseP_cons, hj', cond_true]
      have hni : (n.id == i) = false := by
        apply beq_eq_false_iff_ne.mpr
        intro hni
        exact hne (hni ▸ beq_iff_eq.mp hj)
      simp only [List.any_cons, hni, Bool.false_or] at h
      exact h
    · have hj' : (n.id == j) = false := Bool.eq_false_iff.mpr hj
      simp only [List.eraseP_cons, hj', cond_false]
      simp only [List.any_cons] at h ⊢
      rcases Bool.or_eq_true_iff.mp h with hl | hr
      · rw [hl]; rfl
      · rw [iht hr, Bool.or_true]

/-- Every deletion whose id the in-memory list holds at entry ends with
all matching store rows soft-deleted with the cycle's stamp. -/
lemma applyDeletions_marks (nowDel : Nat) :
    ∀ (dels : List SyncDeletionC) (rows : List LocalNoteRow)
      (mem : List NoteM) (cnt : Nat),
    ∀ d ∈ dels, mem.any (fun n => n.id == d.id) = true →
      ∀ r ∈ (applyDeletions nowDel dels (rows, mem, cnt)).1,
        r.id = d.id → r.deleted = 1 ∧ r.deleted_at = some nowDel := by
  intro dels
  induction dels with
  | nil =>
    intro rows mem cnt d hd
    exact absurd hd (List.not_mem_nil d)
  | cons d0 rest ih =>
    intro rows mem cnt d hd hany
    simp only [applyDeletions]
    by_cases h0 : mem.any (fun n => n.id == d0.id)
    · rw [if_pos h0]
      rcases List.mem_cons.mp hd with hde | hdr
      · subst hde
        exact applyDeletions_persist nowDel d.id rest _ _ _
          (repoDelete_marks nowDel rows d.id)
      · by_cases hid : d.id = d0.id
        · rw [hid]
          exact applyDeletions_persist nowDel d0.id rest _ _ _
            (repoDelete_marks nowDel rows d0.id)
        · exact ih _ _ _ d hdr (any_eraseP_of_ne d.id d0.id hid mem hany)
    · rw [if_neg h0]
      rcases List.mem_cons.mp hd with hde | hdr
      · subst hde
        exact absurd hany h0
      · exact ih _ _ _ d hdr hany

/-- Claim C4 (amended): applying the pull response's deletions never
removes a row from the store — the id column is exactly the one it had
before — and every deletion whose id exists in the in-memory list leaves
all store rows of that id soft-deleted: `deleted = 1` with `deleted_at`
the client's wall clock.  This replaces the claimed hard removal: the
code calls `NoteRepository::delete` (soft), not `hard_delete`. -/
theorem claimC4_pull_deletions (nowDel : Nat) (dels : List SyncDeletionC)
    (rows : List LocalNoteRow) (mem : List NoteM) (cnt : Nat) :
    ((applyDeletions nowDel dels (rows, mem, cnt)).1.map (fun r => r.id)
        = rows.map (fun r => r.id)) ∧
    (∀ d ∈ dels, mem.any (fun n => n.id == d.id) = true →
      ∀ r ∈ (applyDeletions nowDel dels (rows, mem, cnt)).1,
        r.id = d.id → r.deleted = 1 ∧ r.deleted_at = some nowDel) :=
  ⟨applyDeletions_rows_map_id nowDel dels rows mem cnt,
   applyDeletions_marks nowDel dels rows mem cnt⟩

/-- The local note the relay will ask to delete. -/
def c4note : NoteM := NoteM.new ("n7") 50 ("keep")

/-- Its stored row. -/
def c4row : LocalNoteRow := noteRow_of toyPrims c2key [1] [2] c4note

/-- Metadata: API key configured, last sync at 100 (so the push set is
empty: the row's `modified_at` 50 is not after 100). -/
def c4meta : SyncMetadataM :=
  { SyncMetadataM.default with
    api_key := some c2apiBlob, last_sync_at := some 100 }

/-- Client state holding the one row. -/
def c4st : ClientState :=
  { rows := [c4row], meta := some c4meta, memNotes := [c4note] }

/-- Pull response deleting id n7. -/
def c4pull : SyncPullResponseC :=
  { notes := [], deletions := [{ id := ("n7"), deleted_at := 60 }]
    attachments := [], synced_at := 200 }

/-- Environment of the C4 run; the deletion-time clock reads 102. -/
def c4inp : SyncInputs :=
  { pushHttp := .parseError, pullHttp := .success c4pull
    nowPush := 101, nowDel := 102, nowSync := 103, nowPull := 104
    nstream := fun _ => [0] }

set_option maxRecDepth 16000 in
/-- Claim C4 counterexample: a successful cycle whose pull response lists
the deletion of n7 ends with the n7 row STILL IN the notes table, merely
marked `deleted = 1` with `deleted_at` the client's clock — it is not
hard-removed as claimed. -/
theorem claimC4_counterexample :
    (performSync toyPrims c2key c4st c4inp).1 = .ok 1 ∧
    ((performSync toyPrims c2key c4st c4inp).2.rows.map
      (fun r => (r.id, r.deleted, r.deleted_at)))
      = [(("n7"), (1 : Int), some 102)] ∧
    (performSync toyPrims c2key c4st c4inp).2.rows ≠ [] := by
  refine ⟨rfl, by decide, by decide⟩

/-- The row as the deletion loop leaves it. -/
def c4rowDel : LocalNoteRow :=
  { c4row with deleted := 1, deleted_at := some 102, modified_at := 102 }

set_option maxRecDepth 16000 in
/-- Claim C4 witness: the amended statement applied to the concrete
deletion of n7 against the one-row store. -/
theorem claimC4_pull_deletions_witness :
    ((applyDeletions 102 [SyncDeletionC.mk ("n7") 60]
        ([c4row], [c4note], 0)).1.map (fun r => r.id)
      = [c4row].map (fun r => r.id)) ∧
    (c4rowDel.deleted = 1 ∧ c4rowDel.deleted_at = some 102) := by
  refine ⟨(claimC4_pull_deletions 102 [SyncDeletionC.mk ("n7") 60]
    [c4row] [c4note] 0).1, ?_⟩
  exact (claimC4_pull_deletions 102 [SyncDeletionC.mk ("n7") 60]
      [c4row] [c4note] 0).2
    (SyncDeletionC.mk ("n7") 60) (by decide) (by decide)
    c4rowDel (by decide) rfl
